import Mathlib

/-!
Verification of the URL-shortener core found in `src/app/utils.py`,
`src/app/models.py` and `src/app/main.py`.

Python strings are modeled as `List Char` at ASCII fidelity: the character
classes of Python's `re` module (`\d`, `\s`, `[A-Z]` under `re.IGNORECASE`)
and `str.lower()` / `str.strip()` are modeled on their ASCII meaning, which
covers every string the claims and counterexamples mention.

The parsing functions embed the parts of Python's `urllib.parse`
(`urlparse`, `urlsplit`, `urlunparse`, `urlunsplit`, `_splitparams`) that
`normalize_url` in `src/app/utils.py` exercises, following the CPython
sources: `urlsplit` removes the unsafe bytes tab/CR/LF before parsing (its
initial lstrip of C0 controls is a no-op on every string `normalize_url`
feeds it, which always starts with the letter `h` after the scheme-prepend
step), splits an explicit scheme at the first `:`, takes the netloc after
`//` up to the first of `/?#`, splits the fragment at the first `#`, then
the query at the first `?`, and `urlparse` additionally splits the params
of the last path segment when the path contains `;`.

The database (SQLAlchemy + the `urls` table of `src/app/models.py`) is
modeled as a list of rows in insertion order together with the
autoincrement counter and a creation clock; `query(...).first()` is
`List.find?`, `db.add` + `db.commit` appends a row, and the uniqueness
constraint on `short_code` is stated as an invariant theorem.  The
random generator `generate_short_code` (`secrets.choice`, nondeterministic)
enters the model as an oracle `gen : Nat → Str` giving the i-th generated
candidate of a `shorten` call.
-/

namespace UrlShort

abbrev Str := List Char

/-! ## ASCII character classes -/

def isUpperA (c : Char) : Bool := 65 ≤ c.toNat && c.toNat ≤ 90

def isLowerA (c : Char) : Bool := 97 ≤ c.toNat && c.toNat ≤ 122

def isAlphaA (c : Char) : Bool := isUpperA c || isLowerA c

def isDigitA (c : Char) : Bool := 48 ≤ c.toNat && c.toNat ≤ 57

def isAlnumA (c : Char) : Bool := isAlphaA c || isDigitA c

/-- Python's `\s` on ASCII: space, tab, newline, CR, vertical tab, form feed. -/
def isSpaceA (c : Char) : Bool :=
  c = ' ' || c = '\t' || c = '\n' || c = '\r' || c = '\x0b' || c = '\x0c'

/-- `str.lower()` on one ASCII character. -/
def pyLower (c : Char) : Char :=
  if isUpperA c then Char.ofNat (c.toNat + 32) else c

/-- `str.lower()`. -/
def lowerStr (s : Str) : Str := s.map pyLower

/-- `str.strip()`: remove leading and trailing whitespace. -/
def pyStrip (s : Str) : Str :=
  ((s.dropWhile isSpaceA).reverse.dropWhile isSpaceA).reverse

/-- `s.startswith(('http://', 'https://'))` — the (case-sensitive) check at
the top of `normalize_url`. -/
def pyStartswith2 (s : Str) : Bool :=
  s.take 7 = "http://".toList || s.take 8 = "https://".toList

/-- `s.endswith(suffix)`. -/
def pyEndswith (suffix s : Str) : Bool :=
  s.drop (s.length - suffix.length) = suffix

/-! ## urllib.parse -/

structure UrlParts where
  scheme : Str
  netloc : Str
  path : Str
  params : Str
  query : Str
  fragment : Str
deriving DecidableEq

/-- The unsafe bytes `urlsplit` deletes from its input. -/
def safeChar (c : Char) : Bool := !(c = '\t' || c = '\r' || c = '\n')

/-- `scheme_chars` of `urllib.parse`. -/
def schemeChar (c : Char) : Bool := isAlnumA c || c = '+' || c = '-' || c = '.'

/-- The delimiters ending the netloc in `_splitnetloc`. -/
def netlocEnd (c : Char) : Bool := c = '/' || c = '?' || c = '#'

/-- `s.split(d, 1)` for a separator known (or about to be tested) to occur:
the part before the first `d` and the part after it. -/
def splitFirst (d : Char) (s : Str) : Str × Str :=
  (s.takeWhile (fun c => c != d), (s.dropWhile (fun c => c != d)).tail)

/-- `url[0].isascii() and url[0].isalpha()` check on the candidate scheme. -/
def schemeHeadOK (s : Str) : Bool :=
  match s.head? with
  | some c => isAlphaA c
  | none => false

/-- The fragment/query phase of `urlsplit` on the part after the netloc:
split the fragment at the first `#`, then the query at the first `?`;
returns (path, query, fragment). -/
def tailPhase (rest2 : Str) : Str × Str × Str :=
  let path3 := if rest2.contains '#' then (splitFirst '#' rest2).1 else rest2
  let fragment := if rest2.contains '#' then (splitFirst '#' rest2).2 else []
  let path := if path3.contains '?' then (splitFirst '?' path3).1 else path3
  let query := if path3.contains '?' then (splitFirst '?' path3).2 else []
  (path, query, fragment)

/-- The netloc/fragment/query phase of `urlsplit`, applied to what remains
after the scheme has been split off. -/
def pyUrlsplitRest (scheme rest : Str) : UrlParts :=
  let netloc := if rest.take 2 = ['/', '/']
    then (rest.drop 2).takeWhile (fun c => !netlocEnd c) else []
  let rest2 := if rest.take 2 = ['/', '/']
    then (rest.drop 2).dropWhile (fun c => !netlocEnd c) else rest
  let t := tailPhase rest2
  ⟨scheme, netloc, t.1, [], t.2.1, t.2.2⟩

/-- CPython `urlsplit` (with `allow_fragments=True`): delete tab/CR/LF, split
the scheme at the first `:` when the prefix is a well-formed scheme, then
split netloc, fragment and query. -/
def pyUrlsplit (url0 : Str) : UrlParts :=
  let url := url0.filter safeChar
  let pre := url.takeWhile (fun c => c != ':')
  let post := url.dropWhile (fun c => c != ':')
  if pre ≠ [] ∧ post ≠ [] ∧ schemeHeadOK pre = true ∧ pre.all schemeChar = true then
    pyUrlsplitRest (lowerStr pre) post.tail
  else
    pyUrlsplitRest [] url

/-- `uses_params` of `urllib.parse`. -/
def usesParams : List Str :=
  [[], "ftp".toList, "hdl".toList, "prospero".toList, "http".toList,
   "imap".toList, "https".toList, "shttp".toList, "rtsp".toList,
   "rtspu".toList, "sip".toList, "sips".toList, "snews".toList,
   "tel".toList, "telnet".toList]

/-- The path segment after the last `/` (all of `p` when `p` has no `/`). -/
def afterLastSlash (p : Str) : Str :=
  (p.reverse.takeWhile (fun c => c != '/')).reverse

/-- The part of the path up to and including the last `/` (empty when `p`
has no `/`). -/
def beforeLastSlash (p : Str) : Str :=
  (p.reverse.dropWhile (fun c => c != '/')).reverse

/-- CPython `_splitparams`, called only when `;` occurs in the path: split
at the first `;` at or after the last `/` (at the first `;` overall when the
path has no `/`). -/
def splitParams (p : Str) : Str × Str :=
  if p.contains '/' then
    if (afterLastSlash p).contains ';' then
      (beforeLastSlash p ++ (splitFirst ';' (afterLastSlash p)).1,
       (splitFirst ';' (afterLastSlash p)).2)
    else (p, [])
  else splitFirst ';' p

/-- CPython `urlparse`: `urlsplit`, then split params off the path when the
scheme uses params and the path contains `;`. -/
def pyUrlparse (url : Str) : UrlParts :=
  let s := pyUrlsplit url
  if usesParams.contains s.scheme ∧ s.path.contains ';' then
    { s with path := (splitParams s.path).1, params := (splitParams s.path).2 }
  else s

/-- CPython `urlunsplit`. -/
def pyUrlunsplit (scheme netloc url query fragment : Str) : Str :=
  let url := if netloc ≠ [] ∨ (url ≠ [] ∧ url.take 2 = ['/', '/']) then
      '/' :: '/' :: netloc ++ (if url ≠ [] ∧ url.take 1 ≠ ['/'] then '/' :: url else url)
    else url
  let url := if scheme ≠ [] then scheme ++ ':' :: url else url
  let url := if query ≠ [] then url ++ '?' :: query else url
  if fragment ≠ [] then url ++ '#' :: fragment else url

/-- CPython `urlunparse`: rejoin path and params with `;`, then `urlunsplit`. -/
def pyUrlunparse (u : UrlParts) : Str :=
  pyUrlunsplit u.scheme u.netloc
    (if u.params ≠ [] then u.path ++ ';' :: u.params else u.path)
    u.query u.fragment

/-! ## `normalize_url` (src/app/utils.py lines 47-89) -/

/-- The default-port stripping step of `normalize_url`: drop `:80` under
`http` and `:443` under `https` (in that test order, as in the source). -/
def stripPort (scheme netloc0 : Str) : Str :=
  if pyEndswith ":80".toList netloc0 ∧ scheme = "http".toList then
    netloc0.take (netloc0.length - 3)
  else if pyEndswith ":443".toList netloc0 ∧ scheme = "https".toList then
    netloc0.take (netloc0.length - 4)
  else netloc0

def normalize_url (url0 : Str) : Str :=
  -- Add scheme if missing (case-sensitive prefix test, as in the source)
  let url := if pyStartswith2 url0 then url0 else "https://".toList ++ url0
  let parsed := pyUrlparse url
  -- Lowercase scheme and netloc, remove default ports
  let scheme := lowerStr parsed.scheme
  let netloc := stripPort scheme (lowerStr parsed.netloc)
  -- Remove trailing slash from path if it is just "/"
  let path := if parsed.path = "/".toList then [] else parsed.path
  -- Reconstruct URL, dropping the fragment
  pyUrlunparse ⟨scheme, netloc, path, parsed.params, parsed.query, []⟩

/-- The "collapse a bare `/` path" step of `normalize_url` (proof
scaffolding naming a sub-computation). -/
def collapseSlash (p : Str) : Str := if p = "/".toList then [] else p

/-- The leading-slash restoration inside `urlunsplit`'s netloc branch
(proof scaffolding). -/
def slashFix (u : Str) : Str :=
  if u ≠ [] ∧ u.take 1 ≠ ['/'] then '/' :: u else u

/-- `urlunparse`'s rejoining of path and params with `;` (proof
scaffolding). -/
def joinSemi (p par : Str) : Str := if par ≠ [] then p ++ ';' :: par else p

/-- `urlunsplit`'s query re-attachment (proof scaffolding). -/
def queryJoin (q : Str) : Str := if q ≠ [] then '?' :: q else []

/-- What the normalize pipeline does to the path-with-params chunk once the
scheme is in `uses_params` and the netloc is nonempty: split the params off
(`urlparse`), collapse a bare `/` path, rejoin path and params with `;`
(`urlunparse`), and restore a leading `/` (`urlunsplit`).  This is proof
scaffolding naming a sub-computation of `normalize_url`. -/
def reparseX (p : Str) : Str :=
  let pr := if p.contains ';' then splitParams p else (p, [])
  slashFix (joinSemi (collapseSlash pr.1) pr.2)

/-- What the normalize pipeline turns the whole after-netloc part into: the
path run through `reparseX` with the query re-attached (the fragment is
discarded).  Proof scaffolding naming a sub-computation of
`normalize_url`. -/
def outTail (rest2 : Str) : Str :=
  reparseX (tailPhase rest2).1 ++ queryJoin (tailPhase rest2).2.1

/-! ## `is_valid_url` (src/app/utils.py lines 25-44)

The regex
`^https?://(?:(?:[A-Z0-9](?:[A-Z0-9-]{0,61}[A-Z0-9])?\.)+[A-Z]{2,6}\.?|localhost|\d{1,3}\.\d{1,3}\.\d{1,3}\.\d{1,3})(?::\d+)?(?:/?|[/?]\S+)$`
with `re.IGNORECASE` is embedded as a deterministic matcher.  Backtracking
is reflected exactly because the character sets force every split: the host
alternatives use only letters, digits, `.` and `-`, which are disjoint from
`:`, `/`, `?` and the end of the string where the port or the tail must
begin, hence the host must be the maximal run of those characters; when a
`:` follows the host, the optional port group must be taken and must
consume the maximal run of digits, since the tail can only start with `/`,
`?`, the end of the string, or the position before a final newline; `$`
with `re.match` (no MULTILINE) matches at the end or just before a final
newline, which is why a single trailing newline is admitted. -/

/-- Characters a host (domain, `localhost` or IPv4) alternative may use. -/
def hostChar (c : Char) : Bool := isAlnumA c || c = '.' || c = '-'

/-- One domain label `[A-Z0-9](?:[A-Z0-9-]{0,61}[A-Z0-9])?` (IGNORECASE):
nonempty, at most 63 characters, first and last alphanumeric, interior
alphanumeric or hyphen. -/
def labelOK (l : Str) : Bool :=
  match l with
  | [] => false
  | [c] => isAlnumA c
  | c :: rest =>
    isAlnumA c && l.length ≤ 63 &&
    (match rest.getLast? with | some d => isAlnumA d | none => false) &&
    rest.dropLast.all (fun c => isAlnumA c || c = '-')

/-- Final domain label `[A-Z]{2,6}` (IGNORECASE). -/
def lettersOK (l : Str) : Bool :=
  2 ≤ l.length && l.length ≤ 6 && l.all isAlphaA

/-- The first host alternative `(?:label\.)+[A-Z]{2,6}\.?` as a predicate on
the maximal host run, by splitting on `.`. -/
def domainOK (h : Str) : Bool :=
  let parts := h.splitOn '.'
  match parts.getLast? with
  | some last =>
    if last = [] then
      -- trailing dot: the part list ends with an empty component
      let ps := parts.dropLast
      2 ≤ ps.length &&
      (match ps.getLast? with | some fin => lettersOK fin | none => false) &&
      ps.dropLast.all labelOK
    else
      2 ≤ parts.length && lettersOK last && parts.dropLast.all labelOK
  | none => false

/-- The IPv4 alternative `\d{1,3}\.\d{1,3}\.\d{1,3}\.\d{1,3}`. -/
def ipOK (h : Str) : Bool :=
  let parts := h.splitOn '.'
  parts.length = 4 &&
  parts.all (fun p => 1 ≤ p.length && p.length ≤ 3 && p.all isDigitA)

def hostOK (h : Str) : Bool :=
  domainOK h || lowerStr h = "localhost".toList || ipOK h

/-- `^https?://` (IGNORECASE): strip the scheme part, returning the rest.
The two branches (`http://` at position 4, `https://` with an `s` at
position 4) are mutually exclusive — a character cannot lower to both `:`
and `s` — so testing them in either order reflects the regex's greedy
`s?`. -/
def schemeSplit (u : Str) : Option Str :=
  if lowerStr (u.take 4) = "http".toList then
    if (u.drop 4).take 3 = "://".toList then some (u.drop 7)
    else if lowerStr ((u.drop 4).take 1) = "s".toList ∧ (u.drop 5).take 3 = "://".toList then
      some (u.drop 8)
    else none
  else none

/-- `\S+$`: one or more non-whitespace characters, optionally followed by a
final newline (where `$` may match). -/
def bodyOK (t : Str) : Bool :=
  t ≠ [] &&
  (t.all (fun c => !isSpaceA c) ||
   (t.getLast? = some '\n' && t.dropLast ≠ [] && t.dropLast.all (fun c => !isSpaceA c)))

/-- `(?:/?|[/?]\S+)$`. -/
def tailOK (r : Str) : Bool :=
  r = [] || r = "/".toList || r = "\n".toList || r = "/\n".toList ||
  (match r with
   | c :: t => (c = '/' || c = '?') && bodyOK t
   | [] => false)

/-- `(?::\d+)?(?:/?|[/?]\S+)$`. -/
def portTailOK (r : Str) : Bool :=
  match r with
  | ':' :: r2 => r2.takeWhile isDigitA ≠ [] && tailOK (r2.dropWhile isDigitA)
  | _ => tailOK r

def is_valid_url (u : Str) : Bool :=
  match schemeSplit u with
  | none => false
  | some rest =>
    let host := rest.takeWhile hostChar
    host ≠ [] && hostOK host && portTailOK (rest.dropWhile hostChar)

/-! ## The data model (src/app/models.py) and the store -/

/-- One row of the `urls` table. `created_at` is the opaque store-assigned
timestamp (`server_default=func.now()`), modeled as the store clock at
creation. -/
structure URL where
  id : Nat
  long_url : Str
  short_code : Str
  created_at : Nat
  click_count : Nat
deriving DecidableEq

/-- The abstract store: rows in insertion order, the autoincrement primary
key counter, and a clock used for `created_at` (never changed by the
operations modeled here — time passes externally). -/
structure Store where
  rows : List URL
  nextId : Nat
  clock : Nat
deriving DecidableEq

/-- `db.query(URL).filter(URL.long_url == u).first()`. -/
def findByLongUrl (db : Store) (u : Str) : Option URL :=
  db.rows.find? (fun r => r.long_url == u)

/-- `db.query(URL).filter(URL.short_code == c).first()`. -/
def findByShortCode (db : Store) (c : Str) : Option URL :=
  db.rows.find? (fun r => r.short_code == c)

/-- Number of stored rows whose `long_url` is `u`. -/
def countLong (db : Store) (u : Str) : Nat :=
  db.rows.countP (fun r => r.long_url == u)

/-- The short codes of all live rows. -/
def storeCodes (db : Store) : List Str := db.rows.map (·.short_code)

/-- The `short_code` uniqueness constraint of `src/app/models.py` line 14. -/
abbrev codesNodup (db : Store) : Prop := (storeCodes db).Nodup

/-! ## `shorten_url` (src/app/main.py lines 71-146) -/

/-- Outcome of the POST /shorten handler, abstracting the rendered template:
success carries the short code placed in the response. -/
inductive ShortenResult where
  | ok (code : Str)
  | invalidUrl
  | codeSpaceExhausted
deriving DecidableEq

/-- The collision-avoidance loop of `shorten_url` (`for _ in
range(max_attempts)` with `max_attempts = 10`): generate the `i`-th
candidate, keep it if no row holds it, else retry; `none` when the fuel is
exhausted.  The returned `Nat` counts the `generate_short_code()` calls
made. -/
def tryGen (db : Store) (gen : Nat → Str) : Nat → Nat → Option (Str × Nat)
  | _, 0 => none
  | i, fuel + 1 =>
    if findByShortCode db (gen i) = none then some (gen i, i + 1)
    else tryGen db gen (i + 1) fuel

/-- The POST /shorten handler: strip and normalize the input, validate the
normalized URL, dedup on `long_url`, else run the generation loop and insert
a fresh row (`click_count = 0`).  The third component counts the
`generate_short_code()` calls performed. -/
def shorten_url (long_url : Str) (db : Store) (gen : Nat → Str) :
    ShortenResult × Store × Nat :=
  let normalized := normalize_url (pyStrip long_url)
  if is_valid_url normalized = false then (.invalidUrl, db, 0)
  else
    match findByLongUrl db normalized with
    | some existing => (.ok existing.short_code, db, 0)
    | none =>
      match tryGen db gen 0 10 with
      | none => (.codeSpaceExhausted, db, 10)
      | some (code, used) =>
        (.ok code,
         { rows := db.rows ++ [{ id := db.nextId, long_url := normalized,
                                 short_code := code, created_at := db.clock,
                                 click_count := 0 }],
           nextId := db.nextId + 1, clock := db.clock }, used)

/-! ## `redirect_to_url` (src/app/main.py lines 169-203) -/

/-- Outcome of GET /{short_code}: a 302 redirect to the stored URL, or the
404 page. -/
inductive ResolveResult where
  | redirect (url : Str)
  | notFound
deriving DecidableEq

/-- Increment the click count of the first row holding `code` (the row the
ORM loaded with `.first()` and whose mutation `db.commit()` flushes). -/
def incrementFirst : List URL → Str → List URL
  | [], _ => []
  | r :: rs, code =>
    if r.short_code == code then { r with click_count := r.click_count + 1 } :: rs
    else r :: incrementFirst rs code

def redirect_to_url (short_code : Str) (db : Store) : ResolveResult × Store :=
  match findByShortCode db short_code with
  | none => (.notFound, db)
  | some r => (.redirect r.long_url, { db with rows := incrementFirst db.rows short_code })

/-- `redirect_to_url` iterated `k` times on the same code (sequential
resolutions). -/
def resolveTimes (short_code : Str) (db : Store) : Nat → Store
  | 0 => db
  | k + 1 => resolveTimes short_code (redirect_to_url short_code db).2 k

/-! ## The two-phase structure of the click increment (for claim C3)

`redirect_to_url` performs, against the store, a SELECT (line 184) that
loads `click_count` into the session, and then — `url_record.click_count +=
1; db.commit()` (lines 199-200) — an UPDATE that writes back the value the
application computed from the loaded copy.  The increment is therefore two
separate store accesses, not one atomic store-side increment; the state of
a pair of concurrent resolutions of the same code is modeled below with one
read step and one write step per client, interleaved by a schedule. -/

/-- `readCount rows code`: the SELECT — the `click_count` of the first row
holding `code`, if any. -/
def readCount (rows : List URL) (code : Str) : Option Nat :=
  (rows.find? (fun r => r.short_code == code)).map (·.click_count)

/-- `writeCount rows code v`: the UPDATE — overwrite the click count of the
first row holding `code` with the application-computed value `v`. -/
def writeCount : List URL → Str → Nat → List URL
  | [], _, _ => []
  | r :: rs, code, v =>
    if r.short_code == code then { r with click_count := v } :: rs
    else r :: writeCount rs code v

/-- Two concurrent resolutions A and B of the same code: the rows plus the
value each client has read so far. -/
structure TwoClientState where
  rows : List URL
  readA : Option Nat
  readB : Option Nat
deriving DecidableEq

inductive ClickAct where
  | readA | readB | writeA | writeB
deriving DecidableEq

/-- One scheduled step: a client either performs its SELECT, or performs its
UPDATE writing `read value + 1` (a write before the read is a no-op, as the
handler cannot reach line 199 before line 184). -/
def clickStep (code : Str) (s : TwoClientState) : ClickAct → TwoClientState
  | .readA => { s with readA := readCount s.rows code }
  | .readB => { s with readB := readCount s.rows code }
  | .writeA =>
    match s.readA with
    | some v => { s with rows := writeCount s.rows code (v + 1) }
    | none => s
  | .writeB =>
    match s.readB with
    | some v => { s with rows := writeCount s.rows code (v + 1) }
    | none => s

def runClicks (code : Str) (s : TwoClientState) (acts : List ClickAct) : TwoClientState :=
  acts.foldl (clickStep code) s

/-! ## `analytics` (src/app/main.py lines 149-166) -/

/-- Stable descending insertion for `ORDER BY click_count DESC`: `r` (which
precedes `l`'s elements in insertion order) goes before the first element
whose count does not exceed `r`'s. -/
def insertDesc (r : URL) : List URL → List URL
  | [] => [r]
  | x :: xs =>
    if x.click_count ≤ r.click_count then r :: x :: xs
    else x :: insertDesc r xs

/-- The rows sorted by click count descending, stably by insertion order. -/
def sortByClicksDesc : List URL → List URL
  | [] => []
  | x :: xs => insertDesc x (sortByClicksDesc xs)

/-- `db.query(URL).order_by(URL.click_count.desc()).limit(lim).all()` — the
rows sorted by click count descending (stably, by insertion order on ties)
and truncated; the source instantiates `lim` with 50.  The handler issues no
store mutation: it is a pure function of the store. -/
def analytics (db : Store) (lim : Nat) : List URL :=
  (sortByClicksDesc db.rows).take lim

/-! ## Sequences of shorten calls (for claim C8) -/

/-- Run a sequence of POST /shorten requests, each with its own generator
oracle, collecting the outcomes and threading the store. -/
def runShortens : Store → List (Str × (Nat → Str)) → List ShortenResult × Store
  | db, [] => ([], db)
  | db, (raw, gen) :: rest =>
    let out := shorten_url raw db gen
    let next := runShortens out.2.1 rest
    (out.1 :: next.1, next.2)

/-! ## Concrete fixtures used by witnesses and counterexamples -/

def rowA : URL := ⟨1, "https://a.com".toList, "aaaaaa".toList, 0, 5⟩

def rowB : URL := ⟨2, "https://b.com".toList, "bbbbbb".toList, 0, 10⟩

def rowC : URL := ⟨3, "https://c.com".toList, "cccccc".toList, 0, 1⟩

/-- A store holding rows with click counts 5, 10, 1. -/
def demoDb : Store := ⟨[rowA, rowB, rowC], 4, 0⟩

/-- Two shorten requests for distinct URLs, with fixed generator oracles. -/
def demoOps : List (Str × (Nat → Str)) :=
  [("https://a.ab".toList, fun _ => "aaaaaa".toList),
   ("https://b.ab".toList, fun _ => "bbbbbb".toList)]

/-! # Theorems -/

/-! ## Generic helper lemmas -/

theorem incrementFirst_append {pre post : List URL} {r : URL} {code : Str}
    (hpre : ∀ x ∈ pre, (x.short_code == code) = false)
    (hr : (r.short_code == code) = true) :
    incrementFirst (pre ++ r :: post) code =
      pre ++ { r with click_count := r.click_count + 1 } :: post := by
  induction pre with
  | nil => simp [incrementFirst, hr]
  | cons a l ih =>
    have ha : (a.short_code == code) = false := hpre a (by simp)
    simp only [List.cons_append, incrementFirst, ha, Bool.false_eq_true, if_false,
      List.append_eq]
    rw [ih (fun x hx => hpre x (by simp [hx]))]

theorem tryGen_eq_none (db : Store) (gen : Nat → Str) :
    ∀ fuel i, (∀ j, i ≤ j → j < i + fuel → findByShortCode db (gen j) ≠ none) →
    tryGen db gen i fuel = none := by
  intro fuel
  induction fuel with
  | zero => intro i _; rfl
  | succ n ih =>
    intro i h
    unfold tryGen
    rw [if_neg (h i le_rfl (by omega))]
    exact ih (i + 1) (fun j hj1 hj2 => h j (by omega) (by omega))

/-! ## String toolkit for the normalizer proofs -/

theorem contains_iff {l : Str} {c : Char} : l.contains c = true ↔ c ∈ l := by
  simp [List.contains_eq_any_beq]

theorem contains_false_iff {l : Str} {c : Char} : l.contains c = false ↔ c ∉ l := by
  rw [← contains_iff]
  cases l.contains c <;> simp

theorem takeWhile_append_all (p : Char → Bool) :
    ∀ (a b : Str), (∀ c ∈ a, p c = true) →
      (a ++ b).takeWhile p = a ++ b.takeWhile p := by
  intro a
  induction a with
  | nil => intro b _; rfl
  | cons x xs ih =>
    intro b h
    rw [List.cons_append, List.takeWhile_cons_of_pos (h x (by simp)),
      ih b (fun c hc => h c (by simp [hc])), List.cons_append]

theorem dropWhile_append_all (p : Char → Bool) :
    ∀ (a b : Str), (∀ c ∈ a, p c = true) →
      (a ++ b).dropWhile p = b.dropWhile p := by
  intro a
  induction a with
  | nil => intro b _; rfl
  | cons x xs ih =>
    intro b h
    rw [List.cons_append, List.dropWhile_cons_of_pos (h x (by simp)),
      ih b (fun c hc => h c (by simp [hc]))]

theorem span_append (p : Char → Bool) (a b : Str)
    (ha : ∀ c ∈ a, p c = true)
    (hb : b = [] ∨ ∃ c t, b = c :: t ∧ p c = false) :
    (a ++ b).takeWhile p = a ∧ (a ++ b).dropWhile p = b := by
  have h1 := takeWhile_append_all p a b ha
  have h2 := dropWhile_append_all p a b ha
  rcases hb with rfl | ⟨c, t, rfl, hc⟩
  · exact ⟨by rw [h1]; simp, by rw [h2]; rfl⟩
  · rw [h1, h2, List.takeWhile_cons_of_neg (by simp [hc]),
      List.dropWhile_cons_of_neg (by simp [hc])]
    simp

theorem splitFirst_of_not_mem (d : Char) (s : Str) (h : d ∉ s) :
    splitFirst d s = (s, []) := by
  have hs := span_append (fun c => c != d) s []
    (fun c hc => by
      simp only [bne_iff_ne, ne_eq, decide_eq_true_eq]
      rintro rfl
      exact h hc)
    (Or.inl rfl)
  simp only [List.append_nil] at hs
  unfold splitFirst
  rw [hs.1, hs.2]
  rfl

theorem splitFirst_app (d : Char) (a b : Str) (h : d ∉ a) :
    splitFirst d (a ++ d :: b) = (a, b) := by
  have hs := span_append (fun c => c != d) a (d :: b)
    (fun c hc => by
      simp only [bne_iff_ne, ne_eq, decide_eq_true_eq]
      rintro rfl
      exact h hc)
    (Or.inr ⟨d, b, rfl, by simp⟩)
  unfold splitFirst
  rw [hs.1, hs.2]
  rfl

/-! ### `pyLower` facts -/

theorem pyLower_of_not_upper (c : Char) (h : isUpperA c = false) : pyLower c = c := by
  unfold pyLower
  rw [if_neg (by simp [h])]

theorem pyLower_toNat_of_upper (c : Char) (h : isUpperA c = true) :
    (pyLower c).toNat = c.toNat + 32 := by
  simp only [isUpperA, Bool.and_eq_true, decide_eq_true_eq] at h
  unfold pyLower
  rw [if_pos (by simp [isUpperA]; omega)]
  have hv : Nat.isValidChar (c.toNat + 32) := Or.inl (by omega)
  show (Char.ofNat (c.toNat + 32)).toNat = c.toNat + 32
  unfold Char.ofNat
  rw [dif_pos hv]
  rfl

theorem isLowerA_pyLower_of_upper (c : Char) (h : isUpperA c = true) :
    isLowerA (pyLower c) = true := by
  have ht := pyLower_toNat_of_upper c h
  simp only [isUpperA, Bool.and_eq_true, decide_eq_true_eq] at h
  simp only [isLowerA, Bool.and_eq_true, decide_eq_true_eq, ht]
  omega

theorem pyLower_cases (c : Char) : pyLower c = c ∨ isLowerA (pyLower c) = true := by
  cases h : isUpperA c
  · exact Or.inl (pyLower_of_not_upper c h)
  · exact Or.inr (isLowerA_pyLower_of_upper c h)

theorem pyLower_not_upper (c : Char) : isUpperA (pyLower c) = false := by
  cases h : isUpperA c
  · rw [pyLower_of_not_upper c h]
    exact h
  · have ht := pyLower_toNat_of_upper c h
    simp only [isUpperA, Bool.and_eq_true, decide_eq_true_eq] at h
    simp only [isUpperA, ht]
    simp only [Bool.and_eq_false_iff, decide_eq_false_iff_not]
    omega

theorem pyLower_pyLower (c : Char) : pyLower (pyLower c) = pyLower c :=
  pyLower_of_not_upper _ (pyLower_not_upper c)

theorem lowerStr_idem (s : Str) : lowerStr (lowerStr s) = lowerStr s := by
  unfold lowerStr
  rw [List.map_map]
  exact List.map_congr_left (fun c _ => pyLower_pyLower c)

theorem lowerStr_append (a b : Str) : lowerStr (a ++ b) = lowerStr a ++ lowerStr b :=
  List.map_append pyLower a b

theorem lowerStr_fix (s : Str) (h : ∀ c ∈ s, isUpperA c = false) : lowerStr s = s := by
  unfold lowerStr
  conv_rhs => rw [← List.map_id s]
  exact List.map_congr_left (fun c hc => pyLower_of_not_upper c (h c hc))

/-! ### ASCII class implications -/

theorem isLowerA_hostChar (c : Char) (h : isLowerA c = true) : hostChar c = true := by
  simp [hostChar, isAlnumA, isAlphaA, h]

theorem hostChar_not_netlocEnd (c : Char) (h : hostChar c = true) : netlocEnd c = false := by
  simp only [netlocEnd, Bool.or_eq_false_iff, decide_eq_false_iff_not]
  refine ⟨⟨?_, ?_⟩, ?_⟩ <;> rintro rfl <;> revert h <;> decide

theorem hostChar_safe (c : Char) (h : hostChar c = true) : safeChar c = true := by
  simp only [safeChar, Bool.not_eq_true', Bool.or_eq_false_iff, decide_eq_false_iff_not]
  refine ⟨⟨?_, ?_⟩, ?_⟩ <;> rintro rfl <;> revert h <;> decide

theorem hostChar_ne_colon (c : Char) (h : hostChar c = true) : c ≠ ':' := by
  rintro rfl
  revert h
  decide

theorem isAlphaA_not_netlocEnd (c : Char) (h : isAlphaA c = true) : netlocEnd c = false := by
  simp only [netlocEnd, Bool.or_eq_false_iff, decide_eq_false_iff_not]
  refine ⟨⟨?_, ?_⟩, ?_⟩ <;> rintro rfl <;> revert h <;> decide

theorem isAlphaA_safe (c : Char) (h : isAlphaA c = true) : safeChar c = true := by
  simp only [safeChar, Bool.not_eq_true', Bool.or_eq_false_iff, decide_eq_false_iff_not]
  refine ⟨⟨?_, ?_⟩, ?_⟩ <;> rintro rfl <;> revert h <;> decide

theorem isAlphaA_ne_colon (c : Char) (h : isAlphaA c = true) : c ≠ ':' := by
  rintro rfl
  revert h
  decide

theorem isAlphaA_schemeChar (c : Char) (h : isAlphaA c = true) : schemeChar c = true := by
  simp [schemeChar, isAlnumA, h]

theorem isDigitA_not_netlocEnd (c : Char) (h : isDigitA c = true) : netlocEnd c = false := by
  simp only [netlocEnd, Bool.or_eq_false_iff, decide_eq_false_iff_not]
  refine ⟨⟨?_, ?_⟩, ?_⟩ <;> rintro rfl <;> revert h <;> decide

theorem isDigitA_safe (c : Char) (h : isDigitA c = true) : safeChar c = true := by
  simp only [safeChar, Bool.not_eq_true', Bool.or_eq_false_iff, decide_eq_false_iff_not]
  refine ⟨⟨?_, ?_⟩, ?_⟩ <;> rintro rfl <;> revert h <;> decide

theorem isDigitA_ne_colon (c : Char) (h : isDigitA c = true) : c ≠ ':' := by
  rintro rfl
  revert h
  decide

theorem not_space_safe (c : Char) (h : isSpaceA c = false) : safeChar c = true := by
  simp only [safeChar, Bool.not_eq_true', Bool.or_eq_false_iff, decide_eq_false_iff_not]
  refine ⟨⟨?_, ?_⟩, ?_⟩ <;> rintro rfl <;> revert h <;> decide

theorem pyLower_hostChar (c : Char) (h : hostChar c = true) :
    hostChar (pyLower c) = true := by
  rcases pyLower_cases c with he | hl
  · rw [he]
    exact h
  · exact isLowerA_hostChar _ hl

theorem pyLower_alpha (c : Char) (h : isAlphaA c = true) :
    isAlphaA (pyLower c) = true := by
  rcases pyLower_cases c with he | hl
  · rw [he]
    exact h
  · simp [isAlphaA, hl]

theorem pyLower_eq_nonlower (c L : Char) (hL : isLowerA L = false)
    (h : pyLower c = L) : c = L := by
  rcases pyLower_cases c with he | hl
  · rw [← he, h]
  · rw [h] at hl
    rw [hl] at hL
    exact absurd hL (by simp)

/-! ### Subset facts for spans and splits -/

theorem takeWhile_all (p : Char → Bool) (s : Str) (h : ∀ c ∈ s, p c = true) :
    s.takeWhile p = s := by
  have hs := takeWhile_append_all p s [] h
  simpa using hs

theorem dropWhile_all (p : Char → Bool) (s : Str) (h : ∀ c ∈ s, p c = true) :
    s.dropWhile p = [] := by
  have hs := dropWhile_append_all p s [] h
  simpa using hs

theorem dropWhile_head (p : Char → Bool) :
    ∀ (s : Str), s.dropWhile p = [] ∨ ∃ c t, s.dropWhile p = c :: t ∧ p c = false := by
  intro s
  induction s with
  | nil => exact Or.inl rfl
  | cons x xs ih =>
    by_cases hx : p x
    · rw [List.dropWhile_cons_of_pos hx]
      exact ih
    · rw [List.dropWhile_cons_of_neg hx]
      exact Or.inr ⟨x, xs, rfl, by simpa using hx⟩

theorem mem_takeWhile_mem (p : Char → Bool) (l : Str) (x : Char)
    (h : x ∈ l.takeWhile p) : x ∈ l := by
  rw [← List.takeWhile_append_dropWhile p l]
  exact List.mem_append_left _ h

theorem mem_dropWhile_mem (p : Char → Bool) (l : Str) (x : Char)
    (h : x ∈ l.dropWhile p) : x ∈ l := by
  rw [← List.takeWhile_append_dropWhile p l]
  exact List.mem_append_right _ h

theorem mem_splitFirst_fst (d : Char) (s : Str) (x : Char)
    (h : x ∈ (splitFirst d s).1) : x ∈ s :=
  mem_takeWhile_mem _ s x h

theorem mem_splitFirst_snd (d : Char) (s : Str) (x : Char)
    (h : x ∈ (splitFirst d s).2) : x ∈ s :=
  mem_dropWhile_mem _ s x (List.mem_of_mem_tail h)

/-! ### Last-slash decomposition -/

theorem afterLastSlash_app (a b : Str) (h : '/' ∉ b) :
    afterLastSlash (a ++ '/' :: b) = b := by
  unfold afterLastSlash
  rw [List.reverse_append, List.reverse_cons, List.append_assoc,
    takeWhile_append_all _ b.reverse _
      (fun c hc => by
        simp only [bne_iff_ne, ne_eq, decide_eq_true_eq]
        rintro rfl
        exact h (List.mem_reverse.mp hc)),
    List.singleton_append, List.takeWhile_cons_of_neg (by simp)]
  simp

theorem beforeLastSlash_app (a b : Str) (h : '/' ∉ b) :
    beforeLastSlash (a ++ '/' :: b) = a ++ ['/'] := by
  unfold beforeLastSlash
  rw [List.reverse_append, List.reverse_cons, List.append_assoc,
    dropWhile_append_all _ b.reverse _
      (fun c hc => by
        simp only [bne_iff_ne, ne_eq, decide_eq_true_eq]
        rintro rfl
        exact h (List.mem_reverse.mp hc)),
    List.singleton_append, List.dropWhile_cons_of_neg (by simp)]
  rw [List.reverse_cons]
  simp

theorem afterLastSlash_no_slash (p : Str) (h : '/' ∉ p) : afterLastSlash p = p := by
  unfold afterLastSlash
  rw [takeWhile_all _ _
    (fun c hc => by
      simp only [bne_iff_ne, ne_eq, decide_eq_true_eq]
      rintro rfl
      exact h (List.mem_reverse.mp hc))]
  simp

theorem mem_afterLastSlash (p : Str) (x : Char) (h : x ∈ afterLastSlash p) : x ∈ p := by
  unfold afterLastSlash at h
  rw [List.mem_reverse] at h
  exact List.mem_reverse.mp (mem_takeWhile_mem _ _ _ h)

theorem mem_beforeLastSlash (p : Str) (x : Char) (h : x ∈ beforeLastSlash p) : x ∈ p := by
  unfold beforeLastSlash at h
  rw [List.mem_reverse] at h
  exact List.mem_reverse.mp (mem_dropWhile_mem _ _ _ h)

theorem lastSlash_decomp (p : Str) (h : '/' ∈ p) :
    ∃ C, p = C ++ '/' :: afterLastSlash p ∧ '/' ∉ afterLastSlash p ∧
      beforeLastSlash p = C ++ ['/'] := by
  rcases dropWhile_head (fun c => c != '/') p.reverse with hd | ⟨c, t, hd, hc⟩
  · exfalso
    have : p.reverse.takeWhile (fun c => c != '/') = p.reverse := by
      have := List.takeWhile_append_dropWhile (fun c : Char => c != '/') p.reverse
      rw [hd] at this
      simpa using this
    have hmem : '/' ∈ p.reverse.takeWhile (fun c => c != '/') := by
      rw [this]
      exact List.mem_reverse.mpr h
    have := List.mem_takeWhile_imp hmem
    simp at this
  · obtain rfl : c = '/' := by simpa using hc
    refine ⟨t.reverse, ?_, ?_, ?_⟩
    · conv_lhs => rw [← List.reverse_reverse p,
        ← List.takeWhile_append_dropWhile (fun c : Char => c != '/') p.reverse]
      rw [hd, List.reverse_append, List.reverse_cons, List.append_assoc,
        List.singleton_append]
      rfl
    · intro hmem
      have := List.mem_takeWhile_imp (List.mem_reverse.mp hmem)
      simp at this
    · unfold beforeLastSlash
      rw [hd, List.reverse_cons]

theorem not_contains_of (c : Char) (l : Str) (h : c ∉ l) : ¬(l.contains c = true) :=
  fun hc => h (contains_iff.mp hc)

/-! ### `splitParams` computations -/

theorem splitParams_no_slash (p : Str) (hsl : '/' ∉ p) :
    splitParams p = splitFirst ';' p := by
  unfold splitParams
  rw [if_neg (not_contains_of _ _ hsl)]

theorem splitParams_keep (p : Str) (hsl : '/' ∈ p)
    (hsemi : ';' ∉ afterLastSlash p) : splitParams p = (p, []) := by
  unfold splitParams
  rw [if_pos (contains_iff.mpr hsl),
    if_neg (not_contains_of _ _ hsemi)]

theorem splitParams_app (C B1 B2 : Str) (h1 : '/' ∉ B1) (h2 : '/' ∉ B2)
    (h3 : ';' ∉ B1) :
    splitParams (C ++ '/' :: (B1 ++ ';' :: B2)) = (C ++ '/' :: B1, B2) := by
  have hnb : '/' ∉ B1 ++ ';' :: B2 := by
    simp only [List.mem_append, List.mem_cons]
    rintro (hb | heq | hb)
    · exact h1 hb
    · exact absurd heq (by decide)
    · exact h2 hb
  have hals : afterLastSlash (C ++ '/' :: (B1 ++ ';' :: B2)) = B1 ++ ';' :: B2 :=
    afterLastSlash_app _ _ hnb
  have hbls : beforeLastSlash (C ++ '/' :: (B1 ++ ';' :: B2)) = C ++ ['/'] :=
    beforeLastSlash_app _ _ hnb
  unfold splitParams
  rw [if_pos (contains_iff.mpr (by simp)), hals,
    if_pos (contains_iff.mpr (by simp)), splitFirst_app _ _ _ h3, hbls,
    List.append_assoc, List.singleton_append]

/-! ### `reparseX` structure -/

theorem reparseX_of_semi (p : Str) (h : ';' ∈ p) :
    reparseX p = slashFix (joinSemi (collapseSlash (splitParams p).1) (splitParams p).2) := by
  unfold reparseX
  rw [if_pos (contains_iff.mpr h)]

theorem reparseX_of_no_semi (p : Str) (h : ';' ∉ p) :
    reparseX p = slashFix (collapseSlash p) := by
  unfold reparseX
  rw [if_neg (not_contains_of _ _ h)]
  rfl

theorem slashFix_shape (u : Str) : slashFix u = [] ∨ ∃ t, slashFix u = '/' :: t := by
  unfold slashFix
  by_cases hc : u ≠ [] ∧ u.take 1 ≠ ['/']
  · rw [if_pos hc]
    exact Or.inr ⟨u, rfl⟩
  · rw [if_neg hc]
    push_neg at hc
    rcases u with _ | ⟨x, t⟩
    · exact Or.inl rfl
    · right
      obtain rfl : x = '/' := by
        have := hc (by simp)
        simpa using this
      exact ⟨t, rfl⟩

theorem slashFix_of_slash (t : Str) : slashFix ('/' :: t) = '/' :: t := by
  unfold slashFix
  rw [if_neg (by simp)]

theorem mem_slashFix (u : Str) (x : Char) (h : x ∈ slashFix u) : x ∈ u ∨ x = '/' := by
  unfold slashFix at h
  by_cases hc : u ≠ [] ∧ u.take 1 ≠ ['/']
  · rw [if_pos hc] at h
    rcases List.mem_cons.mp h with rfl | h
    · exact Or.inr rfl
    · exact Or.inl h
  · rw [if_neg hc] at h
    exact Or.inl h

theorem mem_splitParams_fst (p : Str) (x : Char) (h : x ∈ (splitParams p).1) : x ∈ p := by
  unfold splitParams at h
  by_cases h1 : (p.contains '/') = true
  · rw [if_pos h1] at h
    by_cases h2 : ((afterLastSlash p).contains ';') = true
    · rw [if_pos h2] at h
      rcases List.mem_append.mp h with h | h
      · exact mem_beforeLastSlash p x h
      · exact mem_afterLastSlash p x (mem_splitFirst_fst _ _ _ h)
    · rw [if_neg h2] at h
      exact h
  · rw [if_neg h1] at h
    exact mem_splitFirst_fst _ _ _ h

theorem mem_splitParams_snd (p : Str) (x : Char) (h : x ∈ (splitParams p).2) : x ∈ p := by
  unfold splitParams at h
  by_cases h1 : (p.contains '/') = true
  · rw [if_pos h1] at h
    by_cases h2 : ((afterLastSlash p).contains ';') = true
    · rw [if_pos h2] at h
      exact mem_afterLastSlash p x (mem_splitFirst_snd _ _ _ h)
    · rw [if_neg h2] at h
      simp at h
  · rw [if_neg h1] at h
    exact mem_splitFirst_snd _ _ _ h

theorem mem_reparseX (p : Str) (x : Char) (h : x ∈ reparseX p) :
    x ∈ p ∨ x = ';' ∨ x = '/' := by
  unfold reparseX at h
  by_cases h1 : (p.contains ';') = true
  · rw [if_pos h1] at h
    rcases mem_slashFix _ x h with h | rfl
    · unfold joinSemi at h
      by_cases h2 : (splitParams p).2 ≠ []
      · rw [if_pos h2] at h
        rcases List.mem_append.mp h with h | h
        · unfold collapseSlash at h
          by_cases h3 : (splitParams p).1 = "/".toList
          · rw [if_pos h3] at h
            simp at h
          · rw [if_neg h3] at h
            exact Or.inl (mem_splitParams_fst p x h)
        · rcases List.mem_cons.mp h with rfl | h
          · exact Or.inr (Or.inl rfl)
          · exact Or.inl (mem_splitParams_snd p x h)
      · rw [if_neg h2] at h
        unfold collapseSlash at h
        by_cases h3 : (splitParams p).1 = "/".toList
        · rw [if_pos h3] at h
          simp at h
        · rw [if_neg h3] at h
          exact Or.inl (mem_splitParams_fst p x h)
    · exact Or.inr (Or.inr rfl)
  · rw [if_neg h1] at h
    rcases mem_slashFix _ x h with h | rfl
    · unfold joinSemi at h
      rw [if_neg (by simp)] at h
      unfold collapseSlash at h
      by_cases h3 : p = "/".toList
      · rw [if_pos h3] at h
        simp at h
      · rw [if_neg h3] at h
        exact Or.inl h
    · exact Or.inr (Or.inr rfl)

theorem reparseX_shape (p : Str) : reparseX p = [] ∨ ∃ t, reparseX p = '/' :: t := by
  unfold reparseX
  exact slashFix_shape _

theorem slashFix_nil : slashFix [] = [] := by
  unfold slashFix
  rw [if_neg (by simp)]

theorem slashFix_idem (u : Str) : slashFix (slashFix u) = slashFix u := by
  rcases slashFix_shape u with h | ⟨t, h⟩
  · rw [h, slashFix_nil]
  · rw [h, slashFix_of_slash]

theorem slashFix_ne_single (u : Str) (h : u ≠ "/".toList) :
    slashFix u ≠ "/".toList := by
  unfold slashFix
  by_cases hc : u ≠ [] ∧ u.take 1 ≠ ['/']
  · rw [if_pos hc]
    intro heq
    exact hc.1 (by simpa using heq)
  · rw [if_neg hc]
    exact h

theorem slashFix_fix (u : Str) (h1 : u ≠ []) (h2 : u.take 1 ≠ ['/']) :
    slashFix u = '/' :: u := by
  unfold slashFix
  rw [if_pos ⟨h1, h2⟩]

theorem mem_slashFix_of_mem (u : Str) (x : Char) (h : x ∈ u) : x ∈ slashFix u := by
  unfold slashFix
  by_cases hc : u ≠ [] ∧ u.take 1 ≠ ['/']
  · rw [if_pos hc]
    exact List.mem_cons_of_mem _ h
  · rw [if_neg hc]
    exact h

theorem collapseSlash_slash : collapseSlash "/".toList = [] := by
  unfold collapseSlash
  rw [if_pos rfl]

theorem collapseSlash_of_ne (p : Str) (h : p ≠ "/".toList) : collapseSlash p = p := by
  unfold collapseSlash
  rw [if_neg h]

theorem joinSemi_nil (q : Str) : joinSemi q [] = q := by
  unfold joinSemi
  rw [if_neg (by simp)]

theorem joinSemi_of_ne (q par : Str) (h : par ≠ []) :
    joinSemi q par = q ++ ';' :: par := by
  unfold joinSemi
  rw [if_pos h]

theorem mem_collapseSlash (p : Str) (x : Char) (h : x ∈ collapseSlash p) : x ∈ p := by
  unfold collapseSlash at h
  by_cases hc : p = "/".toList
  · rw [if_pos hc] at h
    simp at h
  · rw [if_neg hc] at h
    exact h

theorem afterLastSlash_cons_slash (p : Str) (h : '/' ∈ p) :
    afterLastSlash ('/' :: p) = afterLastSlash p := by
  obtain ⟨C, hp, hA, -⟩ := lastSlash_decomp p h
  conv_lhs => rw [hp]
  rw [show '/' :: (C ++ '/' :: afterLastSlash p) = ('/' :: C) ++ '/' :: afterLastSlash p
    from rfl]
  exact afterLastSlash_app _ _ hA

theorem afterLastSlash_slashFix (p : Str) (h : '/' ∈ p) :
    afterLastSlash (slashFix p) = afterLastSlash p := by
  unfold slashFix
  by_cases hc : p ≠ [] ∧ p.take 1 ≠ ['/']
  · rw [if_pos hc]
    exact afterLastSlash_cons_slash p h
  · rw [if_neg hc]

theorem first_split (d : Char) (s : Str) (h : d ∈ s) :
    ∃ a b, s = a ++ d :: b ∧ d ∉ a := by
  rcases dropWhile_head (fun x => x != d) s with hd | ⟨e, t, hd, he⟩
  · exfalso
    have hs : s.takeWhile (fun x => x != d) = s := by
      have hh := List.takeWhile_append_dropWhile (fun x : Char => x != d) s
      rw [hd] at hh
      simpa using hh
    have hmem : d ∈ s.takeWhile (fun x => x != d) := by
      rw [hs]
      exact h
    have := List.mem_takeWhile_imp hmem
    simp at this
  · obtain rfl : d = e := by
      have heq : e = d := by simpa using he
      exact heq.symm
    refine ⟨s.takeWhile (fun x => x != d), t, ?_, ?_⟩
    · conv_lhs => rw [← List.takeWhile_append_dropWhile (fun x : Char => x != d) s]
      rw [hd]
    · intro hm
      have := List.mem_takeWhile_imp hm
      simp at this

theorem cons_append_eq_single (C B : Str) :
    C ++ '/' :: B = "/".toList ↔ C = [] ∧ B = [] := by
  constructor
  · intro h
    have hlen := congrArg List.length h
    rw [List.length_append, List.length_cons] at hlen
    have h1 : ("/".toList).length = 1 := rfl
    rw [h1] at hlen
    have hC : C.length = 0 := by omega
    have hB : B.length = 0 := by omega
    exact ⟨List.length_eq_zero.mp hC, List.length_eq_zero.mp hB⟩
  · rintro ⟨rfl, rfl⟩
    rfl

theorem take_one_ne_slash (a b : Str) (d : Char) (ha : '/' ∉ a) (hd : d ≠ '/') :
    (a ++ d :: b).take 1 ≠ ['/'] := by
  rcases a with _ | ⟨x, a0⟩
  · simpa using hd
  · simp only [List.cons_append, List.take_succ_cons, List.take_zero]
    intro h
    obtain rfl : x = '/' := by simpa using h
    exact ha (by simp)

/-- A string that is empty or starts with `/`, is not exactly `/`, and has
no `;` in its last path segment, is a fixed point of `reparseX`. -/
theorem reparseX_stable_plain (X : Str)
    (hshape : X = [] ∨ ∃ t, X = '/' :: t)
    (hne : X ≠ "/".toList)
    (hsa : ';' ∉ afterLastSlash X) :
    reparseX X = X := by
  rcases hshape with rfl | ⟨t, rfl⟩
  · rw [reparseX_of_no_semi _ (by simp)]
    rw [collapseSlash_of_ne _ (by simp), slashFix_nil]
  · have hXs : '/' ∈ '/' :: t := by simp
    by_cases hsemi : ';' ∈ '/' :: t
    · rw [reparseX_of_semi _ hsemi, splitParams_keep _ hXs hsa]
      dsimp only
      rw [joinSemi_nil, collapseSlash_of_ne _ hne, slashFix_of_slash]
    · rw [reparseX_of_no_semi _ hsemi, collapseSlash_of_ne _ hne, slashFix_of_slash]

/-- A string of the shape `C ++ "/" ++ B1 ++ ";" ++ B2` with slash-free
`B1`, `B2`, semicolon-free `B1`, nonempty `B2` and `C` empty or starting
with `/`, is a fixed point of `reparseX`. -/
theorem reparseX_stable_semi (C B1 B2 : Str)
    (h1 : '/' ∉ B1) (h2 : '/' ∉ B2) (h3 : ';' ∉ B1) (hB2 : B2 ≠ [])
    (hC : C = [] ∨ ∃ t, C = '/' :: t) :
    reparseX (C ++ '/' :: (B1 ++ ';' :: B2)) = C ++ '/' :: (B1 ++ ';' :: B2) := by
  have hsemi : ';' ∈ C ++ '/' :: (B1 ++ ';' :: B2) := by simp
  rw [reparseX_of_semi _ hsemi, splitParams_app C B1 B2 h1 h2 h3]
  dsimp only
  by_cases hp1 : C ++ '/' :: B1 = "/".toList
  · obtain ⟨rfl, rfl⟩ := (cons_append_eq_single C B1).mp hp1
    rw [show ([] : Str) ++ '/' :: ([] : Str) = "/".toList from rfl, collapseSlash_slash,
      joinSemi_of_ne _ _ hB2, List.nil_append,
      slashFix_fix _ (by simp) (by simp)]
    rfl
  · rw [collapseSlash_of_ne _ hp1, joinSemi_of_ne _ _ hB2, List.append_assoc,
      List.cons_append]
    rcases hC with rfl | ⟨t, rfl⟩
    · rw [List.nil_append, slashFix_of_slash]
    · rw [List.cons_append, slashFix_of_slash]

/-- `reparseX` is idempotent: everything the normalize pipeline produces for
the path-with-params chunk is left unchanged when run through it again. -/
theorem reparseX_idem (p : Str) : reparseX (reparseX p) = reparseX p := by
  by_cases hsemi : ';' ∈ p
  · by_cases hslash : '/' ∈ p
    · obtain ⟨C, hp, hA, -⟩ := lastSlash_decomp p hslash
      by_cases hsa : ';' ∈ afterLastSlash p
      · obtain ⟨B1, B2, hAeq, hB1⟩ := first_split ';' _ hsa
        have hB1s : '/' ∉ B1 := fun hm => hA (hAeq ▸ List.mem_append_left _ hm)
        have hB2s : '/' ∉ B2 := fun hm => hA (hAeq ▸ by simp [hm])
        have hpfull : p = C ++ '/' :: (B1 ++ ';' :: B2) := by rw [hp, hAeq]
        rw [reparseX_of_semi p hsemi, hpfull, splitParams_app C B1 B2 hB1s hB2s hB1]
        dsimp only
        by_cases hB2 : B2 = []
        · subst hB2
          rw [joinSemi_nil]
          by_cases hp1 : C ++ '/' :: B1 = "/".toList
          · rw [hp1, collapseSlash_slash, slashFix_nil]
            rw [reparseX_of_no_semi _ (by simp), collapseSlash_of_ne _ (by simp),
              slashFix_nil]
          · rw [collapseSlash_of_ne _ hp1]
            refine reparseX_stable_plain _ (slashFix_shape _)
              (slashFix_ne_single _ hp1) ?_
            rw [afterLastSlash_slashFix _ (by simp), afterLastSlash_app _ _ hB1s]
            exact hB1
        · by_cases hp1 : C ++ '/' :: B1 = "/".toList
          · obtain ⟨rfl, rfl⟩ := (cons_append_eq_single C B1).mp hp1
            rw [show ([] : Str) ++ '/' :: ([] : Str) = "/".toList from rfl,
              collapseSlash_slash, joinSemi_of_ne _ _ hB2, List.nil_append,
              slashFix_fix _ (by simp) (by simp)]
            have hst := reparseX_stable_semi [] [] B2 (by simp) hB2s (by simp) hB2
              (Or.inl rfl)
            simpa using hst
          · rw [collapseSlash_of_ne _ hp1, joinSemi_of_ne _ _ hB2, List.append_assoc,
              List.cons_append]
            rcases C with _ | ⟨c, C0⟩
            · rw [List.nil_append, slashFix_of_slash]
              have hst := reparseX_stable_semi [] B1 B2 hB1s hB2s hB1 hB2 (Or.inl rfl)
              simpa using hst
            · by_cases hc : c = '/'
              · subst hc
                rw [List.cons_append, slashFix_of_slash]
                have hst := reparseX_stable_semi ('/' :: C0) B1 B2 hB1s hB2s hB1 hB2
                  (Or.inr ⟨C0, rfl⟩)
                simpa using hst
              · rw [slashFix_fix _ (by simp) (by
                  simp only [List.cons_append, List.take_succ_cons, List.take_zero]
                  intro hx
                  exact hc (by simpa using hx))]
                have hst := reparseX_stable_semi ('/' :: c :: C0) B1 B2 hB1s hB2s hB1 hB2
                  (Or.inr ⟨c :: C0, rfl⟩)
                simpa using hst
      · have hpne : p ≠ "/".toList := by
          rintro rfl
          exact absurd hsemi (by decide)
        rw [reparseX_of_semi p hsemi, splitParams_keep p hslash hsa]
        dsimp only
        rw [joinSemi_nil, collapseSlash_of_ne _ hpne]
        refine reparseX_stable_plain _ (slashFix_shape _) (slashFix_ne_single _ hpne) ?_
        rw [afterLastSlash_slashFix _ hslash]
        exact hsa
    · obtain ⟨a, b, hpeq, ha⟩ := first_split ';' p hsemi
      have has : '/' ∉ a := fun hm => hslash (hpeq ▸ List.mem_append_left _ hm)
      have hbs : '/' ∉ b := fun hm => hslash (hpeq ▸ by simp [hm])
      have hane : a ≠ "/".toList := fun heq => has (heq ▸ by decide)
      rw [reparseX_of_semi p hsemi, splitParams_no_slash p hslash, hpeq,
        splitFirst_app _ _ _ ha]
      dsimp only
      by_cases hb : b = []
      · subst hb
        rw [joinSemi_nil, collapseSlash_of_ne _ hane]
        refine reparseX_stable_plain _ (slashFix_shape _) (slashFix_ne_single _ hane) ?_
        intro hm
        rcases mem_slashFix _ _ (mem_afterLastSlash _ _ hm) with hm | heq
        · exact ha hm
        · exact absurd heq (by decide)
      · rw [collapseSlash_of_ne _ hane, joinSemi_of_ne _ _ hb,
          slashFix_fix _ (by simp) (take_one_ne_slash a b ';' has (by decide))]
        have hst := reparseX_stable_semi [] a b has hbs ha hb (Or.inl rfl)
        simpa using hst
  · rw [reparseX_of_no_semi p hsemi]
    by_cases hps : p = "/".toList
    · rw [hps, collapseSlash_slash, slashFix_nil]
      rw [reparseX_of_no_semi _ (by simp), collapseSlash_of_ne _ (by simp), slashFix_nil]
    · rw [collapseSlash_of_ne _ hps]
      refine reparseX_stable_plain _ (slashFix_shape _) (slashFix_ne_single _ hps) ?_
      intro hm
      rcases mem_slashFix _ _ (mem_afterLastSlash _ _ hm) with hm | heq
      · exact hsemi hm
      · exact absurd heq (by decide)

/-! ### `tailPhase` and `outTail` -/

theorem queryJoin_nil : queryJoin [] = [] := by
  unfold queryJoin
  rw [if_neg (by simp)]

theorem queryJoin_of_ne (q : Str) (h : q ≠ []) : queryJoin q = '?' :: q := by
  unfold queryJoin
  rw [if_pos h]

theorem mem_queryJoin (q : Str) (x : Char) (h : x ∈ queryJoin q) :
    x ∈ q ∨ x = '?' := by
  unfold queryJoin at h
  by_cases hq : q ≠ []
  · rw [if_pos hq] at h
    rcases List.mem_cons.mp h with rfl | h
    · exact Or.inr rfl
    · exact Or.inl h
  · rw [if_neg hq] at h
    simp at h

theorem mem_tailPhase_fst (T : Str) (x : Char) (h : x ∈ (tailPhase T).1) : x ∈ T := by
  simp only [tailPhase] at h
  by_cases h1 : (T.contains '#') = true <;> by_cases h2 : True
  all_goals
    first
    | (rw [if_pos h1] at h
       by_cases h3 : (((splitFirst '#' T).1).contains '?') = true
       · rw [if_pos h3] at h
         exact mem_splitFirst_fst _ _ _ (mem_splitFirst_fst _ _ _ h)
       · rw [if_neg h3] at h
         exact mem_splitFirst_fst _ _ _ h)
    | (rw [if_neg h1] at h
       by_cases h3 : (T.contains '?') = true
       · rw [if_pos h3] at h
         exact mem_splitFirst_fst _ _ _ h
       · rw [if_neg h3] at h
         exact h)

theorem mem_tailPhase_query (T : Str) (x : Char) (h : x ∈ (tailPhase T).2.1) : x ∈ T := by
  simp only [tailPhase] at h
  by_cases h1 : (T.contains '#') = true
  · rw [if_pos h1] at h
    by_cases h3 : (((splitFirst '#' T).1).contains '?') = true
    · rw [if_pos h3] at h
      exact mem_splitFirst_fst _ _ _ (mem_splitFirst_snd _ _ _ h)
    · rw [if_neg h3] at h
      simp at h
  · rw [if_neg h1] at h
    by_cases h3 : (T.contains '?') = true
    · rw [if_pos h3] at h
      exact mem_splitFirst_snd _ _ _ h
    · rw [if_neg h3] at h
      simp at h

theorem tailPhase_fst_no_query (T : Str) : '?' ∉ (tailPhase T).1 := by
  intro h
  simp only [tailPhase] at h
  by_cases h1 : (T.contains '#') = true
  · rw [if_pos h1] at h
    by_cases h3 : (((splitFirst '#' T).1).contains '?') = true
    · rw [if_pos h3] at h
      have := List.mem_takeWhile_imp h
      simp at this
    · rw [if_neg h3] at h
      exact h3 (contains_iff.mpr h)
  · rw [if_neg h1] at h
    by_cases h3 : (T.contains '?') = true
    · rw [if_pos h3] at h
      have := List.mem_takeWhile_imp h
      simp at this
    · rw [if_neg h3] at h
      exact h3 (contains_iff.mpr h)

theorem mem_path3 (T : Str) (x : Char)
    (h : x ∈ (if T.contains '#' then (splitFirst '#' T).1 else T)) :
    x ∈ T ∧ (x = '#' → '#' ∉ T) := by
  by_cases h1 : (T.contains '#') = true
  · rw [if_pos h1] at h
    refine ⟨mem_splitFirst_fst _ _ _ h, fun hx => ?_⟩
    subst hx
    have := List.mem_takeWhile_imp h
    simp at this
  · rw [if_neg h1] at h
    refine ⟨h, fun hx _ => ?_⟩
    subst hx
    exact h1 (contains_iff.mpr h)

theorem tailPhase_fst_no_hash (T : Str) : '#' ∉ (tailPhase T).1 := by
  intro h
  simp only [tailPhase] at h
  have hp3 : '#' ∈ (if T.contains '#' then (splitFirst '#' T).1 else T) := by
    by_cases h3 : ((if T.contains '#' then (splitFirst '#' T).1 else T).contains '?') = true
    · rw [if_pos h3] at h
      exact mem_splitFirst_fst _ _ _ h
    · rw [if_neg h3] at h
      exact h
  obtain ⟨hmem, himp⟩ := mem_path3 T '#' hp3
  by_cases h1 : (T.contains '#') = true
  · rw [if_pos h1] at hp3
    have := List.mem_takeWhile_imp hp3
    simp at this
  · exact h1 (contains_iff.mpr hmem)

theorem tailPhase_query_no_hash (T : Str) : '#' ∉ (tailPhase T).2.1 := by
  intro h
  simp only [tailPhase] at h
  by_cases h1 : (T.contains '#') = true
  · rw [if_pos h1] at h
    by_cases h3 : (((splitFirst '#' T).1).contains '?') = true
    · rw [if_pos h3] at h
      have := List.mem_takeWhile_imp (mem_splitFirst_snd _ _ _ h)
      simp at this
    · rw [if_neg h3] at h
      simp at h
  · rw [if_neg h1] at h
    by_cases h3 : (T.contains '?') = true
    · rw [if_pos h3] at h
      exact h1 (contains_iff.mpr (mem_splitFirst_snd _ _ _ h))
    · rw [if_neg h3] at h
      simp at h

theorem reparseX_no_query (p : Str) (hp : '?' ∉ p) : '?' ∉ reparseX p := by
  intro h
  rcases mem_reparseX p _ h with h | h | h
  · exact hp h
  · exact absurd h (by decide)
  · exact absurd h (by decide)

theorem reparseX_no_hash (p : Str) (hp : '#' ∉ p) : '#' ∉ reparseX p := by
  intro h
  rcases mem_reparseX p _ h with h | h | h
  · exact hp h
  · exact absurd h (by decide)
  · exact absurd h (by decide)

theorem outTail_no_hash (T : Str) : '#' ∉ outTail T := by
  unfold outTail
  intro h
  rcases List.mem_append.mp h with h | h
  · exact reparseX_no_hash _ (tailPhase_fst_no_hash T) h
  · rcases mem_queryJoin _ _ h with h | h
    · exact tailPhase_query_no_hash T h
    · exact absurd h (by decide)

theorem outTail_shape (T : Str) :
    outTail T = [] ∨ ∃ c t, outTail T = c :: t ∧ netlocEnd c = true := by
  unfold outTail
  rcases reparseX_shape (tailPhase T).1 with h | ⟨t, h⟩
  · rw [h, List.nil_append]
    by_cases hq : (tailPhase T).2.1 = []
    · rw [hq, queryJoin_nil]
      exact Or.inl rfl
    · rw [queryJoin_of_ne _ hq]
      exact Or.inr ⟨'?', _, rfl, by decide⟩
  · rw [h, List.cons_append]
    exact Or.inr ⟨'/', _, rfl, by decide⟩

theorem mem_outTail (T : Str) (x : Char) (h : x ∈ outTail T) :
    x ∈ T ∨ x = ';' ∨ x = '/' ∨ x = '?' := by
  unfold outTail at h
  rcases List.mem_append.mp h with h | h
  · rcases mem_reparseX _ _ h with h | h | h
    · exact Or.inl (mem_tailPhase_fst T x h)
    · exact Or.inr (Or.inl h)
    · exact Or.inr (Or.inr (Or.inl h))
  · rcases mem_queryJoin _ _ h with h | h
    · exact Or.inl (mem_tailPhase_query T x h)
    · exact Or.inr (Or.inr (Or.inr h))

theorem outTail_safe (T : Str) (hT : ∀ c ∈ T, safeChar c = true) :
    ∀ c ∈ outTail T, safeChar c = true := by
  intro c hc
  rcases mem_outTail T c hc with h | rfl | rfl | rfl
  · exact hT c h
  · decide
  · decide
  · decide

/-- `tailPhase` on a string with no `#` and no `?` is the identity path. -/
theorem tailPhase_no_special (X : Str) (h1 : '#' ∉ X) (h2 : '?' ∉ X) :
    tailPhase X = (X, [], []) := by
  simp only [tailPhase]
  rw [if_neg (not_contains_of _ _ h1), if_neg (not_contains_of _ _ h1),
    if_neg (not_contains_of _ _ h2), if_neg (not_contains_of _ _ h2)]

/-- `tailPhase` on `X ++ "?" ++ q` with `#`-free input and `?`-free `X`
splits back into `X` and `q`. -/
theorem tailPhase_with_query (X q : Str) (h1 : '#' ∉ X ++ '?' :: q)
    (h2 : '?' ∉ X) : tailPhase (X ++ '?' :: q) = (X, q, []) := by
  have hq' : '?' ∈ X ++ '?' :: q := by simp
  simp only [tailPhase]
  rw [if_neg (not_contains_of _ _ h1), if_neg (not_contains_of _ _ h1),
    if_pos (contains_iff.mpr hq'), if_pos (contains_iff.mpr hq'),
    splitFirst_app _ _ _ h2]

/-- Feeding the output of `outTail` back through `tailPhase` recovers the
path chunk and the query. -/
theorem tailPhase_outTail (T : Str) :
    tailPhase (outTail T) = (reparseX (tailPhase T).1, (tailPhase T).2.1, []) := by
  have hnq : '?' ∉ reparseX (tailPhase T).1 :=
    reparseX_no_query _ (tailPhase_fst_no_query T)
  have hnh : '#' ∉ outTail T := outTail_no_hash T
  by_cases hq : (tailPhase T).2.1 = []
  · have hout : outTail T = reparseX (tailPhase T).1 := by
      unfold outTail
      rw [hq, queryJoin_nil, List.append_nil]
    rw [hout] at hnh
    rw [hout, tailPhase_no_special _ hnh hnq, hq]
  · have hout : outTail T = reparseX (tailPhase T).1 ++ '?' :: (tailPhase T).2.1 := by
      unfold outTail
      rw [queryJoin_of_ne _ hq]
    rw [hout] at hnh
    rw [hout, tailPhase_with_query _ _ hnh hnq]

/-- `outTail` is idempotent. -/
theorem outTail_idem (T : Str) : outTail (outTail T) = outTail T := by
  conv_lhs => rw [outTail, tailPhase_outTail]
  rw [reparseX_idem]
  unfold outTail
  rfl

/-! ### Parse computations on shaped inputs -/

theorem filter_shaped (sch n Y NL : Str)
    (hs : ∀ c ∈ sch, safeChar c = true)
    (hn : ∀ c ∈ n, safeChar c = true)
    (hY : ∀ c ∈ Y, safeChar c = true)
    (hNL : NL = [] ∨ NL = ['\n']) :
    (sch ++ ':' :: '/' :: '/' :: (n ++ Y ++ NL)).filter safeChar =
      sch ++ ':' :: '/' :: '/' :: (n ++ Y) := by
  rw [List.filter_append, List.filter_eq_self.mpr hs]
  congr 1
  rw [List.filter_cons_of_pos (by decide), List.filter_cons_of_pos (by decide),
    List.filter_cons_of_pos (by decide)]
  congr 1
  rw [List.filter_append, List.filter_append, List.filter_eq_self.mpr hn,
    List.filter_eq_self.mpr hY]
  rcases hNL with rfl | rfl
  · simp
  · rw [List.filter_cons_of_neg (by decide), List.filter_nil, List.append_nil]

theorem schemeHeadOK_of_alpha (s : Str) (h1 : s ≠ []) (h2 : ∀ c ∈ s, isAlphaA c = true) :
    schemeHeadOK s = true := by
  rcases s with _ | ⟨c, t⟩
  · simp at h1
  · simp only [schemeHeadOK, List.head?]
    exact h2 c (by simp)

theorem pyUrlsplitRest_shaped (scheme n Y : Str)
    (hnE : ∀ c ∈ n, netlocEnd c = false)
    (hY : Y = [] ∨ ∃ c t, Y = c :: t ∧ netlocEnd c = true) :
    pyUrlsplitRest scheme ('/' :: '/' :: (n ++ Y)) =
      ⟨scheme, n, (tailPhase Y).1, [], (tailPhase Y).2.1, (tailPhase Y).2.2⟩ := by
  have hnet := span_append (fun c => !netlocEnd c) n Y
    (fun c hc => by simp [hnE c hc])
    (by
      rcases hY with rfl | ⟨c, t, rfl, hc⟩
      · exact Or.inl rfl
      · exact Or.inr ⟨c, t, rfl, by simp [hc]⟩)
  simp only [pyUrlsplitRest]
  rw [if_pos (show ('/' :: '/' :: (n ++ Y)).take 2 = ['/', '/'] from rfl),
    if_pos (show ('/' :: '/' :: (n ++ Y)).take 2 = ['/', '/'] from rfl)]
  rw [show ('/' :: '/' :: (n ++ Y)).drop 2 = n ++ Y from rfl, hnet.1, hnet.2]

theorem pyUrlsplit_shaped (sch n Y NL : Str)
    (hs1 : sch ≠ []) (hs2 : ∀ c ∈ sch, isAlphaA c = true)
    (hnE : ∀ c ∈ n, netlocEnd c = false) (hnS : ∀ c ∈ n, safeChar c = true)
    (hY : Y = [] ∨ ∃ c t, Y = c :: t ∧ netlocEnd c = true)
    (hYS : ∀ c ∈ Y, safeChar c = true)
    (hNL : NL = [] ∨ NL = ['\n']) :
    pyUrlsplit (sch ++ ':' :: '/' :: '/' :: (n ++ Y ++ NL)) =
      ⟨lowerStr sch, n, (tailPhase Y).1, [], (tailPhase Y).2.1, (tailPhase Y).2.2⟩ := by
  have hfilter := filter_shaped sch n Y NL
    (fun c hc => isAlphaA_safe c (hs2 c hc)) hnS hYS hNL
  have hspan := span_append (fun c => c != ':') sch (':' :: '/' :: '/' :: (n ++ Y))
    (fun c hc => by simpa using isAlphaA_ne_colon c (hs2 c hc))
    (Or.inr ⟨':', _, rfl, by simp⟩)
  simp only [pyUrlsplit]
  rw [hfilter, hspan.1, hspan.2]
  rw [if_pos ⟨hs1, by simp, schemeHeadOK_of_alpha sch hs1 hs2,
    List.all_eq_true.mpr (fun c hc => isAlphaA_schemeChar c (hs2 c hc))⟩]
  rw [show (':' :: '/' :: '/' :: (n ++ Y)).tail = '/' :: '/' :: (n ++ Y) from rfl]
  exact pyUrlsplitRest_shaped _ n Y hnE hY

theorem pyUrlunparse_eq (u : UrlParts) :
    pyUrlunparse u =
      pyUrlunsplit u.scheme u.netloc (joinSemi u.path u.params) u.query u.fragment := rfl

theorem pyUrlunsplit_shaped (scheme netloc url q : Str) (hs : scheme ≠ [])
    (hn : netloc ≠ []) :
    pyUrlunsplit scheme netloc url q [] =
      scheme ++ ':' :: '/' :: '/' :: (netloc ++ (slashFix url ++ queryJoin q)) := by
  simp only [pyUrlunsplit]
  rw [if_pos (Or.inl hn),
    show (if url ≠ [] ∧ url.take 1 ≠ ['/'] then '/' :: url else url) = slashFix url
      from rfl,
    if_pos hs, if_neg (show ¬(([] : Str) ≠ []) from by simp)]
  by_cases hq : q ≠ []
  · rw [if_pos hq, queryJoin_of_ne _ hq]
    simp [List.append_assoc]
  · rw [if_neg hq]
    push_neg at hq
    subst hq
    rw [queryJoin_nil, List.append_nil]
    simp [List.append_assoc]

/-- The central computation: `normalize_url` on a string of the shape
`scheme://` + netloc-safe chunk `n` + tail `Y` + optional trailing newline,
with the scheme spelled exactly `http` or `https`.  The output is the
scheme, the port-stripped lowercased netloc, and the tail rebuilt by
`outTail`. -/
theorem normalize_core (sch n Y NL : Str)
    (hsch : sch = "http".toList ∨ sch = "https".toList)
    (hnE : ∀ c ∈ n, netlocEnd c = false) (hnS : ∀ c ∈ n, safeChar c = true)
    (hY : Y = [] ∨ ∃ c t, Y = c :: t ∧ netlocEnd c = true)
    (hYS : ∀ c ∈ Y, safeChar c = true)
    (hNL : NL = [] ∨ NL = ['\n'])
    (hstrip : stripPort sch (lowerStr n) ≠ []) :
    normalize_url (sch ++ ':' :: '/' :: '/' :: (n ++ Y ++ NL)) =
      sch ++ ':' :: '/' :: '/' :: (stripPort sch (lowerStr n) ++ outTail Y) := by
  have hs1 : sch ≠ [] := by rcases hsch with rfl | rfl <;> decide
  have hs2 : ∀ c ∈ sch, isAlphaA c = true := by rcases hsch with rfl | rfl <;> decide
  have hlow : lowerStr sch = sch := by rcases hsch with rfl | rfl <;> decide
  have husp : usesParams.contains sch = true := by rcases hsch with rfl | rfl <;> decide
  have hsplit := pyUrlsplit_shaped sch n Y NL hs1 hs2 hnE hnS hY hYS hNL
  rw [hlow] at hsplit
  have hstart : pyStartswith2 (sch ++ ':' :: '/' :: '/' :: (n ++ Y ++ NL)) = true := by
    unfold pyStartswith2
    rcases hsch with rfl | rfl
    · rw [show ("http".toList ++ ':' :: '/' :: '/' :: (n ++ Y ++ NL)).take 7
        = "http://".toList from rfl]
      simp
    · rw [show ("https".toList ++ ':' :: '/' :: '/' :: (n ++ Y ++ NL)).take 8
        = "https://".toList from rfl]
      simp
  by_cases hsemi : ';' ∈ (tailPhase Y).1
  · have hparse : pyUrlparse (sch ++ ':' :: '/' :: '/' :: (n ++ Y ++ NL)) =
        ⟨sch, n, (splitParams (tailPhase Y).1).1, (splitParams (tailPhase Y).1).2,
         (tailPhase Y).2.1, (tailPhase Y).2.2⟩ := by
      simp only [pyUrlparse]
      rw [hsplit]
      rw [if_pos ⟨husp, contains_iff.mpr hsemi⟩]
    simp only [normalize_url]
    rw [if_pos hstart, hparse]
    dsimp only
    rw [hlow]
    rw [show (if (splitParams (tailPhase Y).1).1 = "/".toList then ([] : Str)
        else (splitParams (tailPhase Y).1).1)
      = collapseSlash (splitParams (tailPhase Y).1).1 from rfl]
    rw [pyUrlunparse_eq]
    dsimp only
    rw [pyUrlunsplit_shaped _ _ _ _ hs1 hstrip]
    rw [show outTail Y = reparseX (tailPhase Y).1 ++ queryJoin (tailPhase Y).2.1
      from rfl]
    rw [reparseX_of_semi _ hsemi]
  · have hparse : pyUrlparse (sch ++ ':' :: '/' :: '/' :: (n ++ Y ++ NL)) =
        ⟨sch, n, (tailPhase Y).1, [], (tailPhase Y).2.1, (tailPhase Y).2.2⟩ := by
      simp only [pyUrlparse]
      rw [hsplit]
      rw [if_neg (fun hand => hsemi (contains_iff.mp hand.2))]
    simp only [normalize_url]
    rw [if_pos hstart, hparse]
    dsimp only
    rw [hlow]
    rw [show (if (tailPhase Y).1 = "/".toList then ([] : Str) else (tailPhase Y).1)
      = collapseSlash (tailPhase Y).1 from rfl]
    rw [pyUrlunparse_eq]
    dsimp only
    rw [pyUrlunsplit_shaped _ _ _ _ hs1 hstrip]
    rw [show outTail Y = reparseX (tailPhase Y).1 ++ queryJoin (tailPhase Y).2.1
      from rfl]
    rw [reparseX_of_no_semi _ hsemi, joinSemi_nil]

/-! ### `pyEndswith` and `stripPort` -/

theorem pyEndswith_iff (suf s : Str) : pyEndswith suf s = true ↔ ∃ t, s = t ++ suf := by
  unfold pyEndswith
  simp only [decide_eq_true_eq]
  constructor
  · intro h
    refine ⟨s.take (s.length - suf.length), ?_⟩
    conv_lhs => rw [← List.take_append_drop (s.length - suf.length) s]
    rw [h]
  · rintro ⟨t, rfl⟩
    rw [List.length_append]
    have he : t.length + suf.length - suf.length = t.length := by omega
    rw [he, List.drop_left]

theorem stripPort_no_colon (sch m0 : Str) (h : ':' ∉ m0) : stripPort sch m0 = m0 := by
  have h80 : ¬(pyEndswith ":80".toList m0 = true ∧ sch = "http".toList) := by
    rintro ⟨he, -⟩
    obtain ⟨t, rfl⟩ := (pyEndswith_iff _ _).mp he
    exact h (List.mem_append_right t (by decide))
  have h443 : ¬(pyEndswith ":443".toList m0 = true ∧ sch = "https".toList) := by
    rintro ⟨he, -⟩
    obtain ⟨t, rfl⟩ := (pyEndswith_iff _ _).mp he
    exact h (List.mem_append_right t (by decide))
  unfold stripPort
  rw [if_neg h80, if_neg h443]

/-- A list with a single occurrence of `x` splits uniquely at `x`. -/
theorem colon_unique (x : Char) (a b c d : Str) (ha : x ∉ a) (hb : x ∉ b)
    (h : a ++ x :: b = c ++ x :: d) : a = c ∧ b = d := by
  have hc : x ∉ c := by
    intro hxc
    obtain ⟨c1, c2, rfl, hc1⟩ := first_split x c hxc
    rw [List.append_assoc, List.cons_append] at h
    have h2 := congrArg (splitFirst x) h
    rw [splitFirst_app x a b ha, splitFirst_app x c1 (c2 ++ x :: d) hc1] at h2
    have hbd : b = c2 ++ x :: d := congrArg Prod.snd h2
    exact hb (by rw [hbd]; exact List.mem_append_right _ (List.mem_cons_self _ _))
  have h2 := congrArg (splitFirst x) h
  rw [splitFirst_app x a b ha, splitFirst_app x c d hc] at h2
  exact ⟨congrArg Prod.fst h2, congrArg Prod.snd h2⟩

/-- `stripPort` on a netloc of the shape `A:D` with a single colon. -/
theorem stripPort_app (sch A D : Str) (hA : ':' ∉ A) (hD : ':' ∉ D) :
    stripPort sch (A ++ ':' :: D) =
      if D = "80".toList ∧ sch = "http".toList then A
      else if D = "443".toList ∧ sch = "https".toList then A
      else A ++ ':' :: D := by
  by_cases h80 : D = "80".toList ∧ sch = "http".toList
  · obtain ⟨rfl, rfl⟩ := h80
    rw [if_pos ⟨rfl, rfl⟩]
    unfold stripPort
    rw [if_pos ⟨(pyEndswith_iff _ _).mpr ⟨A, rfl⟩, rfl⟩]
    have h3 : (A ++ ':' :: "80".toList).length - 3 = A.length := by
      simp [List.length_append]
    rw [h3, List.take_left]
  · rw [if_neg h80]
    by_cases h443 : D = "443".toList ∧ sch = "https".toList
    · obtain ⟨rfl, rfl⟩ := h443
      rw [if_pos ⟨rfl, rfl⟩]
      have hc1 : ¬(pyEndswith ":80".toList (A ++ ':' :: "443".toList) = true ∧
          "https".toList = "http".toList) := by
        rintro ⟨-, hs⟩
        exact absurd hs (by decide)
      unfold stripPort
      rw [if_neg hc1, if_pos ⟨(pyEndswith_iff _ _).mpr ⟨A, rfl⟩, rfl⟩]
      have h4 : (A ++ ':' :: "443".toList).length - 4 = A.length := by
        simp [List.length_append]
      rw [h4, List.take_left]
    · rw [if_neg h443]
      have hc1 : ¬(pyEndswith ":80".toList (A ++ ':' :: D) = true ∧
          sch = "http".toList) := by
        rintro ⟨he, hs⟩
        obtain ⟨t, ht⟩ := (pyEndswith_iff _ _).mp he
        have he2 : A ++ ':' :: D = t ++ ':' :: "80".toList := ht
        exact h80 ⟨(colon_unique ':' A D t "80".toList hA hD he2).2, hs⟩
      have hc2 : ¬(pyEndswith ":443".toList (A ++ ':' :: D) = true ∧
          sch = "https".toList) := by
        rintro ⟨he, hs⟩
        obtain ⟨t, ht⟩ := (pyEndswith_iff _ _).mp he
        have he2 : A ++ ':' :: D = t ++ ':' :: "443".toList := ht
        exact h443 ⟨(colon_unique ':' A D t "443".toList hA hD he2).2, hs⟩
      unfold stripPort
      rw [if_neg hc1, if_neg hc2]

theorem stripPort_prefix (sch x : Str) : ∃ k, stripPort sch x = x.take k := by
  unfold stripPort
  by_cases h1 : pyEndswith ":80".toList x = true ∧ sch = "http".toList
  · exact ⟨x.length - 3, by rw [if_pos h1]⟩
  · rw [if_neg h1]
    by_cases h2 : pyEndswith ":443".toList x = true ∧ sch = "https".toList
    · exact ⟨x.length - 4, by rw [if_pos h2]⟩
    · exact ⟨x.length, by rw [if_neg h2, List.take_length]⟩

theorem stripPort_mem (sch x : Str) (c : Char) (hc : c ∈ stripPort sch x) : c ∈ x := by
  obtain ⟨k, hk⟩ := stripPort_prefix sch x
  rw [hk] at hc
  exact List.take_subset k x hc

theorem mem_lowerStr (s : Str) (c : Char) (hc : c ∈ lowerStr s) :
    ∃ c0 ∈ s, c = pyLower c0 := by
  obtain ⟨c0, h0, he⟩ := List.mem_map.mp hc
  exact ⟨c0, h0, he.symm⟩

theorem netlocEnd_pyLower (c : Char) (h : netlocEnd c = false) :
    netlocEnd (pyLower c) = false := by
  rcases pyLower_cases c with he | hl
  · rw [he]
    exact h
  · exact hostChar_not_netlocEnd _ (isLowerA_hostChar _ hl)

theorem safeChar_pyLower (c : Char) (h : safeChar c = true) :
    safeChar (pyLower c) = true := by
  rcases pyLower_cases c with he | hl
  · rw [he]
    exact h
  · exact hostChar_safe _ (isLowerA_hostChar _ hl)

theorem alpha_of_pyLower_lower (c : Char) (h : isLowerA (pyLower c) = true) :
    isAlphaA c = true := by
  cases hu : isUpperA c
  · rw [pyLower_of_not_upper c hu] at h
    simp [isAlphaA, h]
  · simp [isAlphaA, hu]

theorem isAlphaA_hostChar (c : Char) (h : isAlphaA c = true) : hostChar c = true := by
  simp [hostChar, isAlnumA, h]

theorem isDigitA_not_upper (c : Char) (h : isDigitA c = true) : isUpperA c = false := by
  simp only [isDigitA, Bool.and_eq_true, decide_eq_true_eq] at h
  simp only [isUpperA, Bool.and_eq_false_iff, decide_eq_false_iff_not]
  omega

/-- Every character of a string that lowercases to `http` or `https` is a
letter. -/
theorem scheme_chars_alpha (S : Str)
    (hS : lowerStr S = "http".toList ∨ lowerStr S = "https".toList) :
    ∀ c ∈ S, isAlphaA c = true := by
  intro c hc
  have hm : pyLower c ∈ lowerStr S := List.mem_map_of_mem pyLower hc
  have hl : isLowerA (pyLower c) = true := by
    rcases hS with h | h
    · rw [h] at hm
      exact (show ∀ x ∈ "http".toList, isLowerA x = true from by decide) _ hm
    · rw [h] at hm
      exact (show ∀ x ∈ "https".toList, isLowerA x = true from by decide) _ hm
  exact alpha_of_pyLower_lower c hl

theorem netloc_chars_end (host P : Str) (hhostc : ∀ c ∈ host, hostChar c = true)
    (hP : P = [] ∨ ∃ D, P = ':' :: D ∧ ∀ c ∈ D, isDigitA c = true) :
    ∀ c ∈ host ++ P, netlocEnd c = false := by
  intro c hc
  rcases List.mem_append.mp hc with h | h
  · exact hostChar_not_netlocEnd c (hhostc c h)
  · rcases hP with rfl | ⟨D, rfl, hD⟩
    · exact absurd h (List.not_mem_nil c)
    · rcases List.mem_cons.mp h with rfl | h2
      · decide
      · exact isDigitA_not_netlocEnd c (hD c h2)

theorem netloc_chars_safe (host P : Str) (hhostc : ∀ c ∈ host, hostChar c = true)
    (hP : P = [] ∨ ∃ D, P = ':' :: D ∧ ∀ c ∈ D, isDigitA c = true) :
    ∀ c ∈ host ++ P, safeChar c = true := by
  intro c hc
  rcases List.mem_append.mp hc with h | h
  · exact hostChar_safe c (hhostc c h)
  · rcases hP with rfl | ⟨D, rfl, hD⟩
    · exact absurd h (List.not_mem_nil c)
    · rcases List.mem_cons.mp h with rfl | h2
      · decide
      · exact isDigitA_safe c (hD c h2)

theorem stripPort_lower_end (sch n : Str) (hn : ∀ c ∈ n, netlocEnd c = false) :
    ∀ c ∈ stripPort sch (lowerStr n), netlocEnd c = false := by
  intro c hc
  obtain ⟨c0, h0, rfl⟩ := mem_lowerStr n c (stripPort_mem sch _ c hc)
  exact netlocEnd_pyLower c0 (hn c0 h0)

theorem stripPort_lower_safe (sch n : Str) (hn : ∀ c ∈ n, safeChar c = true) :
    ∀ c ∈ stripPort sch (lowerStr n), safeChar c = true := by
  intro c hc
  obtain ⟨c0, h0, rfl⟩ := mem_lowerStr n c (stripPort_mem sch _ c hc)
  exact safeChar_pyLower c0 (hn c0 h0)

/-- The lowercased, port-stripped netloc built from a host and an optional
`:digits` port is nonempty and a fixed point of both `stripPort` and
`lowerStr`. -/
theorem stripPort_facts (sch host P : Str)
    (hhost : host ≠ []) (hhostc : ∀ c ∈ host, hostChar c = true)
    (hP : P = [] ∨ ∃ D, P = ':' :: D ∧ ∀ c ∈ D, isDigitA c = true) :
    stripPort sch (lowerStr (host ++ P)) ≠ [] ∧
      stripPort sch (stripPort sch (lowerStr (host ++ P))) =
        stripPort sch (lowerStr (host ++ P)) ∧
      lowerStr (stripPort sch (lowerStr (host ++ P))) =
        stripPort sch (lowerStr (host ++ P)) := by
  have hA : ':' ∉ lowerStr host := by
    intro hc
    obtain ⟨c0, h0, he⟩ := mem_lowerStr _ _ hc
    exact hostChar_ne_colon c0 (hhostc c0 h0)
      (pyLower_eq_nonlower c0 ':' (by decide) he.symm)
  have hAne : lowerStr host ≠ [] := by
    intro he
    exact hhost (List.map_eq_nil_iff.mp he)
  rcases hP with rfl | ⟨D, rfl, hD⟩
  · rw [List.append_nil, stripPort_no_colon sch _ hA]
    exact ⟨hAne, by rw [stripPort_no_colon sch _ hA], lowerStr_idem host⟩
  · have hDc : ':' ∉ D := fun hc => isDigitA_ne_colon ':' (hD ':' hc) rfl
    have hup : ∀ c ∈ ':' :: D, isUpperA c = false := by
      intro c hc
      rcases List.mem_cons.mp hc with rfl | h2
      · decide
      · exact isDigitA_not_upper c (hD c h2)
    have hsplit : lowerStr (host ++ ':' :: D) = lowerStr host ++ ':' :: D := by
      rw [lowerStr_append]
      congr 1
      exact lowerStr_fix (':' :: D) hup
    rw [hsplit, stripPort_app sch _ D hA hDc]
    by_cases h80 : D = "80".toList ∧ sch = "http".toList
    · rw [if_pos h80]
      exact ⟨hAne, by rw [stripPort_no_colon sch _ hA], lowerStr_idem host⟩
    · rw [if_neg h80]
      by_cases h443 : D = "443".toList ∧ sch = "https".toList
      · rw [if_pos h443]
        exact ⟨hAne, by rw [stripPort_no_colon sch _ hA], lowerStr_idem host⟩
      · rw [if_neg h443]
        refine ⟨by simp, ?_, ?_⟩
        · rw [stripPort_app sch _ D hA hDc, if_neg h80, if_neg h443]
        · rw [lowerStr_append, lowerStr_idem]
          congr 1
          exact lowerStr_fix (':' :: D) hup

/-- Applying `normalize_url` twice to a scheme-shaped string whose netloc
normalizes to a fixed point gives the same result as applying it once. -/
theorem normalize_fixpoint_aux (sch n Y NL : Str)
    (hsch : sch = "http".toList ∨ sch = "https".toList)
    (hnE : ∀ c ∈ n, netlocEnd c = false) (hnS : ∀ c ∈ n, safeChar c = true)
    (hY : Y = [] ∨ ∃ c t, Y = c :: t ∧ netlocEnd c = true)
    (hYS : ∀ c ∈ Y, safeChar c = true)
    (hNL : NL = [] ∨ NL = ['\n'])
    (hm1 : stripPort sch (lowerStr n) ≠ [])
    (hm2 : stripPort sch (stripPort sch (lowerStr n)) = stripPort sch (lowerStr n))
    (hm3 : lowerStr (stripPort sch (lowerStr n)) = stripPort sch (lowerStr n)) :
    normalize_url (normalize_url (sch ++ ':' :: '/' :: '/' :: (n ++ Y ++ NL))) =
      normalize_url (sch ++ ':' :: '/' :: '/' :: (n ++ Y ++ NL)) := by
  rw [normalize_core sch n Y NL hsch hnE hnS hY hYS hNL hm1]
  have h2 := normalize_core sch (stripPort sch (lowerStr n)) (outTail Y) []
    hsch (stripPort_lower_end sch n hnE) (stripPort_lower_safe sch n hnS)
    (outTail_shape Y) (outTail_safe Y hYS) (Or.inl rfl)
    (by rw [hm3, hm2]; exact hm1)
  rw [List.append_nil] at h2
  rw [h2, hm3, hm2, outTail_idem]

theorem schemeSplit_shape {u r : Str} (h : schemeSplit u = some r) :
    ∃ s, u = s ++ ':' :: '/' :: '/' :: r ∧
      (lowerStr s = "http".toList ∨ lowerStr s = "https".toList) := by
  unfold schemeSplit at h
  by_cases h1 : lowerStr (u.take 4) = "http".toList
  · rw [if_pos h1] at h
    by_cases h2 : (u.drop 4).take 3 = "://".toList
    · rw [if_pos h2] at h
      obtain rfl : u.drop 7 = r := by simpa using h
      refine ⟨u.take 4, ?_, Or.inl h1⟩
      conv_lhs => rw [← List.take_append_drop 4 u]
      congr 1
      conv_lhs => rw [← List.take_append_drop 3 (u.drop 4)]
      rw [h2, List.drop_drop]
      rfl
    · rw [if_neg h2] at h
      by_cases h3 : lowerStr ((u.drop 4).take 1) = "s".toList ∧
          (u.drop 5).take 3 = "://".toList
      · rw [if_pos h3] at h
        obtain rfl : u.drop 8 = r := by simpa using h
        have h5 : u.take 5 = u.take 4 ++ (u.drop 4).take 1 := by
          have := List.take_add u 4 1
          simpa using this
        refine ⟨u.take 5, ?_, Or.inr ?_⟩
        · conv_lhs => rw [← List.take_append_drop 5 u]
          congr 1
          conv_lhs => rw [← List.take_append_drop 3 (u.drop 5)]
          rw [h3.2, List.drop_drop]
          rfl
        · rw [h5, lowerStr, List.map_append, ← lowerStr, ← lowerStr, h1, h3.1]
          rfl
      · rw [if_neg h3] at h
        exact absurd h (by simp)
  · rw [if_neg h1] at h
    exact absurd h (by simp)

/-! ### Shape of strings accepted by the validator -/

theorem bodyOK_shape (t : Str) (h : bodyOK t = true) :
    ∃ B NL, t = B ++ NL ∧ (∀ c ∈ B, safeChar c = true) ∧
      (NL = [] ∨ NL = ['\n']) := by
  simp only [bodyOK, Bool.and_eq_true, Bool.or_eq_true, decide_eq_true_eq,
    List.all_eq_true, Bool.not_eq_true'] at h
  obtain ⟨hne, hbody⟩ := h
  rcases hbody with hall | ⟨⟨hlast, hne2⟩, hall2⟩
  · refine ⟨t, [], (List.append_nil t).symm, ?_, Or.inl rfl⟩
    intro c hc
    exact not_space_safe c (hall c hc)
  · have hg : t.getLast hne = '\n' := by
      have h2 := List.getLast?_eq_getLast t hne
      rw [hlast] at h2
      exact (Option.some.inj h2).symm
    have ht0 := List.dropLast_append_getLast hne
    rw [hg] at ht0
    refine ⟨t.dropLast, ['\n'], ht0.symm, ?_, Or.inr rfl⟩
    intro c hc
    exact not_space_safe c (hall2 c hc)

theorem tailOK_shape (T : Str) (h : tailOK T = true) :
    ∃ Y NL, T = Y ++ NL ∧ (Y = [] ∨ ∃ c t, Y = c :: t ∧ netlocEnd c = true) ∧
      (∀ c ∈ Y, safeChar c = true) ∧ (NL = [] ∨ NL = ['\n']) := by
  simp only [tailOK, Bool.or_eq_true, decide_eq_true_eq] at h
  rcases h with ((((h | h) | h) | h) | h)
  · exact ⟨[], [], by rw [h]; rfl, Or.inl rfl, by simp, Or.inl rfl⟩
  · refine ⟨"/".toList, [], by rw [h]; rfl, Or.inr ⟨'/', [], rfl, by decide⟩,
      by decide, Or.inl rfl⟩
  · exact ⟨[], ['\n'], by rw [h]; rfl, Or.inl rfl, by simp, Or.inr rfl⟩
  · refine ⟨"/".toList, ['\n'], by rw [h]; rfl, Or.inr ⟨'/', [], rfl, by decide⟩,
      by decide, Or.inr rfl⟩
  · cases T with
    | nil => simp at h
    | cons c t =>
      simp only [Bool.and_eq_true, Bool.or_eq_true, decide_eq_true_eq] at h
      obtain ⟨hc, hb⟩ := h
      obtain ⟨B, NL, hB, hBsafe, hNL⟩ := bodyOK_shape t hb
      refine ⟨c :: B, NL, by rw [hB]; rfl, Or.inr ⟨c, B, rfl, ?_⟩, ?_, hNL⟩
      · rcases hc with rfl | rfl <;> decide
      · intro x hx
        rcases List.mem_cons.mp hx with rfl | hx2
        · rcases hc with rfl | rfl <;> decide
        · exact hBsafe x hx2

theorem portTail_shape (R : Str) (h : portTailOK R = true) :
    ∃ P Y NL, R = P ++ Y ++ NL ∧
      (P = [] ∨ ∃ D, P = ':' :: D ∧ ∀ c ∈ D, isDigitA c = true) ∧
      (Y = [] ∨ ∃ c t, Y = c :: t ∧ netlocEnd c = true) ∧
      (∀ c ∈ Y, safeChar c = true) ∧ (NL = [] ∨ NL = ['\n']) := by
  unfold portTailOK at h
  split at h
  · next r2 =>
    simp only [Bool.and_eq_true, decide_eq_true_eq] at h
    obtain ⟨-, htail⟩ := h
    obtain ⟨Y, NL, hT, hY, hYs, hNL⟩ := tailOK_shape _ htail
    refine ⟨':' :: r2.takeWhile isDigitA, Y, NL, ?_,
      Or.inr ⟨_, rfl, fun c hc => List.mem_takeWhile_imp hc⟩, hY, hYs, hNL⟩
    conv_lhs => rw [← List.takeWhile_append_dropWhile isDigitA r2, hT]
    simp [List.append_assoc]
  · obtain ⟨Y, NL, hT, hY, hYs, hNL⟩ := tailOK_shape _ h
    exact ⟨[], Y, NL, by rw [hT]; rfl, Or.inl rfl, hY, hYs, hNL⟩

/-- Every string the validator accepts decomposes into a scheme that
lowercases to `http` or `https`, `://`, a nonempty host of host characters,
an optional `:digits` port, a tail that is empty or begins with `/` or `?`
and is free of tab, CR and LF, and an optional final newline. -/
theorem is_valid_shape (u : Str) (h : is_valid_url u = true) :
    ∃ S host P Y NL,
      u = S ++ ':' :: '/' :: '/' :: (host ++ P ++ Y ++ NL) ∧
      (lowerStr S = "http".toList ∨ lowerStr S = "https".toList) ∧
      host ≠ [] ∧ (∀ c ∈ host, hostChar c = true) ∧
      (P = [] ∨ ∃ D, P = ':' :: D ∧ ∀ c ∈ D, isDigitA c = true) ∧
      (Y = [] ∨ ∃ c t, Y = c :: t ∧ netlocEnd c = true) ∧
      (∀ c ∈ Y, safeChar c = true) ∧
      (NL = [] ∨ NL = ['\n']) := by
  unfold is_valid_url at h
  cases hss : schemeSplit u with
  | none =>
    rw [hss] at h
    exact absurd h (by simp)
  | some rest =>
    rw [hss] at h
    simp only [Bool.and_eq_true, decide_eq_true_eq] at h
    obtain ⟨⟨hhost, -⟩, hpt⟩ := h
    obtain ⟨PP, Y, NL, hR, hP, hY, hYs, hNL⟩ := portTail_shape _ hpt
    obtain ⟨S, hu, hS⟩ := schemeSplit_shape hss
    refine ⟨S, rest.takeWhile hostChar, PP, Y, NL, ?_, hS, hhost,
      fun c hc => List.mem_takeWhile_imp hc, hP, hY, hYs, hNL⟩
    have hrest : rest = rest.takeWhile hostChar ++ ((PP ++ Y) ++ NL) := by
      conv_lhs => rw [← List.takeWhile_append_dropWhile hostChar rest, hR]
    rw [hu]
    conv_lhs => rw [hrest]
    simp [List.append_assoc]

/-! ### The scheme-prefix test of `normalize_url` -/

theorem pyStartswith2_prepend (u : Str) :
    pyStartswith2 ("https://".toList ++ u) = true := by
  unfold pyStartswith2
  rw [List.take_left' (show ("https://".toList : Str).length = 8 from rfl)]
  simp

/-- When the case-sensitive prefix test fails, `normalize_url` behaves as
`normalize_url` of the input with `https://` prepended. -/
theorem normalize_prepend (u : Str) (h : pyStartswith2 u = false) :
    normalize_url u = normalize_url ("https://".toList ++ u) := by
  simp only [normalize_url]
  rw [if_neg (by simp [h]), if_pos (pyStartswith2_prepend u)]

theorem pyStartswith2_nonliteral (S rest : Str)
    (hS : lowerStr S = "http".toList ∨ lowerStr S = "https".toList)
    (hne1 : S ≠ "http".toList) (hne2 : S ≠ "https".toList)
    (hrest : rest ≠ []) :
    pyStartswith2 (S ++ ':' :: '/' :: '/' :: rest) = false := by
  have hlen : S.length = 4 ∨ S.length = 5 := by
    rcases hS with h | h
    · left
      have h2 := congrArg List.length h
      rw [lowerStr, List.length_map] at h2
      exact h2.trans rfl
    · right
      have h2 := congrArg List.length h
      rw [lowerStr, List.length_map] at h2
      exact h2.trans rfl
  simp only [pyStartswith2, Bool.or_eq_false_iff, decide_eq_false_iff_not]
  constructor
  · intro heq
    rcases hlen with h4 | h5
    · rw [show (7 : Nat) = S.length + 3 from by omega, List.take_append] at heq
      have heq2 : S ++ [':', '/', '/'] = "http".toList ++ [':', '/', '/'] := heq
      obtain ⟨hSe, -⟩ := List.append_inj' heq2 rfl
      exact hne1 hSe
    · rw [show (7 : Nat) = S.length + 2 from by omega, List.take_append] at heq
      have heq2 : S ++ [':', '/'] = (['h', 't', 't', 'p', ':'] : Str) ++ ['/', '/'] := heq
      obtain ⟨-, htl⟩ := List.append_inj' heq2 rfl
      exact absurd htl (by decide)
  · intro heq
    rcases hlen with h4 | h5
    · obtain ⟨r, rest0, rfl⟩ := List.exists_cons_of_ne_nil hrest
      rw [show (8 : Nat) = S.length + 4 from by omega, List.take_append] at heq
      have heq2 : S ++ [':', '/', '/', r] = "http".toList ++ ['s', ':', '/', '/'] := heq
      obtain ⟨-, htl⟩ := List.append_inj' heq2 rfl
      simp only [List.cons.injEq] at htl
      exact absurd htl.1 (by decide)
    · rw [show (8 : Nat) = S.length + 3 from by omega, List.take_append] at heq
      have heq2 : S ++ [':', '/', '/'] = "https".toList ++ [':', '/', '/'] := heq
      obtain ⟨hSe, -⟩ := List.append_inj' heq2 rfl
      exact hne2 hSe

theorem mem_insertDesc {y r : URL} : ∀ {l : List URL}, y ∈ insertDesc r l → y = r ∨ y ∈ l := by
  intro l
  induction l with
  | nil => simp [insertDesc]
  | cons x xs ih =>
    intro hy
    by_cases hc : x.click_count ≤ r.click_count
    · simp only [insertDesc, if_pos hc, List.mem_cons] at hy
      rcases hy with rfl | hy
      · exact Or.inl rfl
      · exact Or.inr (List.mem_cons.mpr hy)
    · simp only [insertDesc, if_neg hc, List.mem_cons] at hy
      rcases hy with rfl | hy
      · right; exact List.mem_cons_self _ _
      · rcases ih hy with h | h
        · exact Or.inl h
        · exact Or.inr (List.mem_cons_of_mem _ h)

theorem insertDesc_pairwise {r : URL} {l : List URL}
    (h : l.Pairwise (fun a b => b.click_count ≤ a.click_count)) :
    (insertDesc r l).Pairwise (fun a b => b.click_count ≤ a.click_count) := by
  induction l with
  | nil => simp [insertDesc]
  | cons x xs ih =>
    rw [List.pairwise_cons] at h
    obtain ⟨hx, hxs⟩ := h
    by_cases hc : x.click_count ≤ r.click_count
    · simp only [insertDesc, if_pos hc]
      refine List.pairwise_cons.mpr ⟨?_, List.pairwise_cons.mpr ⟨hx, hxs⟩⟩
      intro y hy
      rw [List.mem_cons] at hy
      rcases hy with rfl | hy
      · exact hc
      · exact le_trans (hx y hy) hc
    · simp only [insertDesc, if_neg hc]
      refine List.pairwise_cons.mpr ⟨?_, ih hxs⟩
      intro y hy
      rcases mem_insertDesc hy with rfl | hy
      · omega
      · exact hx y hy

theorem sortByClicksDesc_pairwise (l : List URL) :
    (sortByClicksDesc l).Pairwise (fun a b => b.click_count ≤ a.click_count) := by
  induction l with
  | nil => simp [sortByClicksDesc]
  | cons x xs ih => exact insertDesc_pairwise ih

/-! ## Claim C1 -/

/-- Claim C1 (refuted; the code diverges from the spec here): the three
spellings do NOT all normalize to one canonical string.  The source tests
`url.startswith(('http://', 'https://'))` case-sensitively, so the
uppercase-scheme spelling is treated as scheme-less and a second scheme is
prepended, producing `https://https://EXAMPLE.com:443/`. -/
theorem C1_normalize_equivalence_fails :
    normalize_url "example.com".toList = "https://example.com".toList ∧
    normalize_url "https://example.com".toList = "https://example.com".toList ∧
    normalize_url "HTTPS://EXAMPLE.com:443/".toList
      = "https://https://EXAMPLE.com:443/".toList ∧
    normalize_url "HTTPS://EXAMPLE.com:443/".toList
      ≠ normalize_url "example.com".toList := by
  exact ⟨by decide, by decide, by decide, by decide⟩

/-! ## Claim C4 -/

/-- Claim C4: when the call reaches the generation loop (valid URL, no
existing mapping for the normalized URL) and all 10 generated candidates
collide with stored short codes, `shorten` fails with CodeSpaceExhausted,
makes exactly 10 generation calls, and leaves the store unchanged. -/
theorem C4_exhaustion_boundary (raw : Str) (db : Store) (gen : Nat → Str)
    (hvalid : is_valid_url (normalize_url (pyStrip raw)) = true)
    (hfresh : findByLongUrl db (normalize_url (pyStrip raw)) = none)
    (hcollide : ∀ i, i < 10 → findByShortCode db (gen i) ≠ none) :
    shorten_url raw db gen = (.codeSpaceExhausted, db, 10) := by
  have hgen : tryGen db gen 0 10 = none :=
    tryGen_eq_none db gen 10 0 (fun j _ hj => hcollide j (by omega))
  unfold shorten_url
  rw [if_neg (by simp [hvalid]), hfresh, hgen]

theorem C4_witness :
    is_valid_url (normalize_url (pyStrip "https://other.ab".toList)) = true ∧
    findByLongUrl demoDb (normalize_url (pyStrip "https://other.ab".toList)) = none ∧
    (∀ i, i < 10 → findByShortCode demoDb ((fun _ => "aaaaaa".toList) i) ≠ none) ∧
    shorten_url "https://other.ab".toList demoDb (fun _ => "aaaaaa".toList)
      = (.codeSpaceExhausted, demoDb, 10) :=
  ⟨by decide, by decide, by decide,
   C4_exhaustion_boundary _ _ _ (by decide) (by decide) (by decide)⟩

/-! ## Claim C6 -/

/-- Claim C6: resolving a short code with no mapping in the store yields
NotFound and returns the store literally unchanged: no row is created and
no field of any row is mutated. -/
theorem C6_unknown_code_pure_failure (code : Str) (db : Store)
    (h : findByShortCode db code = none) :
    redirect_to_url code db = (.notFound, db) := by
  unfold redirect_to_url
  rw [h]

theorem C6_witness :
    findByShortCode demoDb "doesnotexist".toList = none ∧
    redirect_to_url "doesnotexist".toList demoDb = (.notFound, demoDb) :=
  ⟨by decide, C6_unknown_code_pure_failure _ _ (by decide)⟩

/-! ## Claim C7 -/

/-- Claim C7: resolving a stored short code returns that mapping's
`long_url` and increments that mapping's `click_count` by exactly one; its
`id`, `long_url`, `short_code` and `created_at` fields, every other row,
and the rest of the store (`nextId`, `clock`) are unchanged. -/
theorem C7_resolve_frame (code : Str) (db : Store) (r : URL)
    (h : findByShortCode db code = some r) :
    (redirect_to_url code db).1 = .redirect r.long_url ∧
    ∃ pre post,
      db.rows = pre ++ r :: post ∧
      (∀ x ∈ pre, (x.short_code == code) = false) ∧
      (r.short_code == code) = true ∧
      (redirect_to_url code db).2 =
        { db with rows := pre ++ { r with click_count := r.click_count + 1 } :: post } := by
  have hd := List.find?_eq_some.mp h
  obtain ⟨hp, pre, post, hrows, hpre⟩ := hd
  have hpre' : ∀ x ∈ pre, (x.short_code == code) = false := by
    intro x hx
    simpa using hpre x hx
  constructor
  · unfold redirect_to_url
    rw [h]
  · refine ⟨pre, post, hrows, hpre', hp, ?_⟩
    unfold redirect_to_url
    rw [h]
    simp only
    rw [hrows, incrementFirst_append hpre' hp]

theorem C7_witness :
    findByShortCode demoDb "bbbbbb".toList = some rowB ∧
    ((redirect_to_url "bbbbbb".toList demoDb).1 = .redirect rowB.long_url ∧
     ∃ pre post,
       demoDb.rows = pre ++ rowB :: post ∧
       (∀ x ∈ pre, (x.short_code == "bbbbbb".toList) = false) ∧
       (rowB.short_code == "bbbbbb".toList) = true ∧
       (redirect_to_url "bbbbbb".toList demoDb).2 =
         { demoDb with
             rows := pre ++ { rowB with click_count := rowB.click_count + 1 } :: post }) :=
  ⟨by decide, C7_resolve_frame _ _ _ (by decide)⟩

/-! ## Step lemmas for `shorten_url` -/

theorem shorten_invalid {raw : Str} (db : Store) (gen : Nat → Str)
    (h : is_valid_url (normalize_url (pyStrip raw)) = false) :
    shorten_url raw db gen = (.invalidUrl, db, 0) := by
  simp [shorten_url, h]

theorem shorten_dedup {raw : Str} {db : Store} (gen : Nat → Str) {e : URL}
    (hv : is_valid_url (normalize_url (pyStrip raw)) = true)
    (hf : findByLongUrl db (normalize_url (pyStrip raw)) = some e) :
    shorten_url raw db gen = (.ok e.short_code, db, 0) := by
  simp [shorten_url, hv, hf]

theorem shorten_exhausted {raw : Str} {db : Store} {gen : Nat → Str}
    (hv : is_valid_url (normalize_url (pyStrip raw)) = true)
    (hf : findByLongUrl db (normalize_url (pyStrip raw)) = none)
    (hg : tryGen db gen 0 10 = none) :
    shorten_url raw db gen = (.codeSpaceExhausted, db, 10) := by
  simp [shorten_url, hv, hf, hg]

/-- The row inserted on the fresh-code path. -/
def freshRow (db : Store) (normalized code : Str) : URL :=
  { id := db.nextId, long_url := normalized, short_code := code,
    created_at := db.clock, click_count := 0 }

theorem shorten_fresh {raw : Str} {db : Store} {gen : Nat → Str} {code : Str} {used : Nat}
    (hv : is_valid_url (normalize_url (pyStrip raw)) = true)
    (hf : findByLongUrl db (normalize_url (pyStrip raw)) = none)
    (hg : tryGen db gen 0 10 = some (code, used)) :
    shorten_url raw db gen =
      (.ok code,
       { rows := db.rows ++ [freshRow db (normalize_url (pyStrip raw)) code],
         nextId := db.nextId + 1, clock := db.clock }, used) := by
  simp [shorten_url, hv, hf, hg, freshRow]

theorem tryGen_free {db : Store} {gen : Nat → Str} :
    ∀ {fuel i code used}, tryGen db gen i fuel = some (code, used) →
    findByShortCode db code = none := by
  intro fuel
  induction fuel with
  | zero => intro i code used h; exact absurd h (by simp [tryGen])
  | succ n ih =>
    intro i code used h
    unfold tryGen at h
    by_cases hc : findByShortCode db (gen i) = none
    · rw [if_pos hc] at h
      obtain ⟨rfl, -⟩ : gen i = code ∧ i + 1 = used := by
        simpa using h
      exact hc
    · rw [if_neg hc] at h
      exact ih h

/-! ## Claim C2 -/

/-- Claim C2: if two raw inputs have equal normalized forms (as the handler
computes them: strip then normalize) and a first `shorten` call succeeds
with code `c`, then a second call with the other spelling succeeds with the
same code `c`, leaves the store untouched, performs zero generation calls,
and afterwards exactly one row holds that normalized URL (given the stored
invariant that at most one row held it before the calls). -/
theorem C2_dedup_idempotent (r1 r2 : Str) (db : Store) (g1 g2 : Nat → Str)
    (c : Str) (db1 : Store) (n1 : Nat)
    (hnorm : normalize_url (pyStrip r1) = normalize_url (pyStrip r2))
    (hcount : countLong db (normalize_url (pyStrip r1)) ≤ 1)
    (h1 : shorten_url r1 db g1 = (.ok c, db1, n1)) :
    shorten_url r2 db1 g2 = (.ok c, db1, 0) ∧
    countLong db1 (normalize_url (pyStrip r1)) = 1 := by
  by_cases hv : is_valid_url (normalize_url (pyStrip r1)) = true
  · cases hf : findByLongUrl db (normalize_url (pyStrip r1)) with
    | some e =>
      rw [shorten_dedup g1 hv hf] at h1
      simp only [Prod.mk.injEq, ShortenResult.ok.injEq] at h1
      obtain ⟨rfl, rfl, -⟩ := h1
      constructor
      · rw [shorten_dedup g2 (hnorm ▸ hv) (hnorm ▸ hf)]
      · have hmem := List.mem_of_find?_eq_some hf
        have hpe := List.find?_some hf
        have hpos : 0 < countLong db (normalize_url (pyStrip r1)) :=
          List.countP_pos_iff.mpr ⟨e, hmem, hpe⟩
        omega
    | none =>
      cases hg : tryGen db g1 0 10 with
      | none =>
        rw [shorten_exhausted hv hf hg] at h1
        exact absurd h1 (by simp)
      | some pr =>
        obtain ⟨code, used⟩ := pr
        rw [shorten_fresh hv hf hg] at h1
        simp only [Prod.mk.injEq, ShortenResult.ok.injEq] at h1
        obtain ⟨rfl, hdb1, -⟩ := h1
        have hzero : countLong db (normalize_url (pyStrip r1)) = 0 :=
          List.countP_eq_zero.mpr (by simpa using List.find?_eq_none.mp hf)
        have hf2 : findByLongUrl db1 (normalize_url (pyStrip r2)) =
            some (freshRow db (normalize_url (pyStrip r1)) code) := by
          rw [← hnorm, ← hdb1]
          have hf' : db.rows.find? (fun r => r.long_url == normalize_url (pyStrip r1)) = none := hf
          show (db.rows ++ [freshRow db (normalize_url (pyStrip r1)) code]).find? _ = _
          rw [List.find?_append, hf']
          simp [freshRow]
        constructor
        · rw [shorten_dedup g2 (hnorm ▸ hv) hf2]
          rfl
        · rw [← hdb1]
          show (db.rows ++ [freshRow db (normalize_url (pyStrip r1)) code]).countP _ = 1
          rw [List.countP_append]
          have : countLong db (normalize_url (pyStrip r1)) =
              db.rows.countP (fun r => r.long_url == normalize_url (pyStrip r1)) := rfl
          rw [this] at hzero
          rw [hzero]
          simp [freshRow]
  · rw [shorten_invalid db g1 (by simpa using hv)] at h1
    exact absurd h1 (by simp)

theorem C2_witness :
    normalize_url (pyStrip "example.com".toList)
      = normalize_url (pyStrip "https://example.com/".toList) ∧
    countLong ⟨[], 0, 0⟩ (normalize_url (pyStrip "example.com".toList)) ≤ 1 ∧
    shorten_url "example.com".toList ⟨[], 0, 0⟩ (fun _ => "abc123".toList) =
      (.ok "abc123".toList,
       ⟨[⟨0, "https://example.com".toList, "abc123".toList, 0, 0⟩], 1, 0⟩, 1) ∧
    (shorten_url "https://example.com/".toList
        ⟨[⟨0, "https://example.com".toList, "abc123".toList, 0, 0⟩], 1, 0⟩
        (fun _ => "zzzzzz".toList) =
      (.ok "abc123".toList,
       ⟨[⟨0, "https://example.com".toList, "abc123".toList, 0, 0⟩], 1, 0⟩, 0) ∧
     countLong ⟨[⟨0, "https://example.com".toList, "abc123".toList, 0, 0⟩], 1, 0⟩
       (normalize_url (pyStrip "example.com".toList)) = 1) :=
  ⟨by decide, by decide, by decide,
   C2_dedup_idempotent "example.com".toList "https://example.com/".toList ⟨[], 0, 0⟩
     (fun _ => "abc123".toList) (fun _ => "zzzzzz".toList) "abc123".toList
     ⟨[⟨0, "https://example.com".toList, "abc123".toList, 0, 0⟩], 1, 0⟩ 1
     (by decide) (by decide) (by decide)⟩

/-! ## Claim C5 -/

/-- Claim C5: `shorten("not a url")` and `shorten("ftp://example.com")` both
fail with InvalidUrl (leaving the store untouched); the validator is a total
boolean function (it can only answer `false` on malformed input, never
raise), and it accepts only `http` or `https` schemes: any accepted string
starts with one of them, case-insensitively. -/
theorem C5_invalid_input_rejection :
    (∀ db gen, shorten_url "not a url".toList db gen = (.invalidUrl, db, 0)) ∧
    (∀ db gen, shorten_url "ftp://example.com".toList db gen = (.invalidUrl, db, 0)) ∧
    (∀ u : Str, is_valid_url u = true →
      lowerStr (u.take 4) = "http".toList ∨ lowerStr (u.take 5) = "https".toList) := by
  refine ⟨fun db gen => shorten_invalid db gen (by decide),
          fun db gen => shorten_invalid db gen (by decide), ?_⟩
  intro u hu
  unfold is_valid_url at hu
  cases hs : schemeSplit u with
  | none => rw [hs] at hu; exact absurd hu (by simp)
  | some rest =>
    obtain ⟨sch, rfl, hsch | hsch⟩ := schemeSplit_shape hs
    · left
      have hlen : sch.length = 4 := by
        have := congrArg List.length hsch
        simpa [lowerStr] using this
      rw [List.take_append_of_le_length (by omega), List.take_of_length_le (by omega)]
      exact hsch
    · right
      have hlen : sch.length = 5 := by
        have := congrArg List.length hsch
        simpa [lowerStr] using this
      rw [List.take_append_of_le_length (by omega), List.take_of_length_le (by omega)]
      exact hsch

theorem C5_witness :
    shorten_url "not a url".toList ⟨[], 0, 0⟩ (fun _ => []) = (.invalidUrl, ⟨[], 0, 0⟩, 0) ∧
    shorten_url "ftp://example.com".toList ⟨[], 0, 0⟩ (fun _ => [])
      = (.invalidUrl, ⟨[], 0, 0⟩, 0) ∧
    (lowerStr ("HTTP://x.ab".toList.take 4) = "http".toList ∨
     lowerStr ("HTTP://x.ab".toList.take 5) = "https".toList) :=
  ⟨C5_invalid_input_rejection.1 _ _, C5_invalid_input_rejection.2.1 _ _,
   C5_invalid_input_rejection.2.2 "HTTP://x.ab".toList (by decide)⟩

/-! ## Claim C3 -/

/-- Claim C3 (refuted; code bug evidence): the click increment in the
redirect handler is NOT an atomic store-side read-modify-write.  The source
loads the row (line 184), computes `click_count + 1` in the application
(line 199) and commits the computed value (line 200).  Interleaving the
read and write phases of two concurrent resolutions of the same code as
read/read/write/write makes both writes store the same value: starting from
count 5, two resolutions leave 6 instead of 7 — an increment is lost, so
"K concurrent resolutions increase clickCount by exactly K" fails.  The
sequential schedule and the sequential handler itself do add 1 per
resolution. -/
theorem C3_click_increment_not_atomic :
    (runClicks "aaaaaa".toList ⟨[rowA], none, none⟩
        [.readA, .readB, .writeA, .writeB]).rows.map (·.click_count) = [6] ∧
    (runClicks "aaaaaa".toList ⟨[rowA], none, none⟩
        [.readA, .writeA, .readB, .writeB]).rows.map (·.click_count) = [7] ∧
    (resolveTimes "aaaaaa".toList demoDb 2).rows.map (·.click_count) = [7, 10, 1] :=
  ⟨by decide, by decide, by decide⟩

/-! ## Claim C8 -/

theorem runShortens_fst_cons (raw : Str) (gen : Nat → Str)
    (rest : List (Str × (Nat → Str))) (db : Store) :
    (runShortens db ((raw, gen) :: rest)).1 =
      (shorten_url raw db gen).1 ::
        (runShortens (shorten_url raw db gen).2.1 rest).1 := by
  rw [runShortens]

theorem runShortens_snd_cons (raw : Str) (gen : Nat → Str)
    (rest : List (Str × (Nat → Str))) (db : Store) :
    (runShortens db ((raw, gen) :: rest)).2 =
      (runShortens (shorten_url raw db gen).2.1 rest).2 := by
  rw [runShortens]

theorem shorten_rows_extend (raw : Str) (db : Store) (gen : Nat → Str) :
    ∃ ext, (shorten_url raw db gen).2.1.rows = db.rows ++ ext := by
  by_cases hv : is_valid_url (normalize_url (pyStrip raw)) = true
  · cases hf : findByLongUrl db (normalize_url (pyStrip raw)) with
    | some e => exact ⟨[], by rw [shorten_dedup gen hv hf]; simp⟩
    | none =>
      cases hg : tryGen db gen 0 10 with
      | none => exact ⟨[], by rw [shorten_exhausted hv hf hg]; simp⟩
      | some pr =>
        exact ⟨[freshRow db (normalize_url (pyStrip raw)) pr.1],
          by rw [shorten_fresh hv hf hg]⟩
  · exact ⟨[], by rw [shorten_invalid db gen (by simpa using hv)]; simp⟩

theorem shorten_codes_nodup (raw : Str) (db : Store) (gen : Nat → Str)
    (h : codesNodup db) : codesNodup (shorten_url raw db gen).2.1 := by
  by_cases hv : is_valid_url (normalize_url (pyStrip raw)) = true
  · cases hf : findByLongUrl db (normalize_url (pyStrip raw)) with
    | some e => rw [shorten_dedup gen hv hf]; exact h
    | none =>
      cases hg : tryGen db gen 0 10 with
      | none => rw [shorten_exhausted hv hf hg]; exact h
      | some pr =>
        obtain ⟨code, used⟩ := pr
        rw [shorten_fresh hv hf hg]
        have hfree : findByShortCode db code = none := tryGen_free hg
        have hnot : ∀ x ∈ db.rows, x.short_code ≠ code := by
          intro x hx
          have := List.find?_eq_none.mp hfree x hx
          simpa using this
        show ((db.rows ++ [freshRow db (normalize_url (pyStrip raw)) code]).map
          (·.short_code)).Nodup
        rw [List.map_append]
        rw [List.nodup_append]
        refine ⟨h, by simp, ?_⟩
        intro a ha hb
        simp only [List.map_cons, List.map_nil, List.mem_singleton] at hb
        subst hb
        obtain ⟨x, hx, hxc⟩ := List.mem_map.mp ha
        exact hnot x hx (by simpa [freshRow] using hxc)
  · rw [shorten_invalid db gen (by simpa using hv)]; exact h

theorem shorten_ok_mem (raw : Str) (db : Store) (gen : Nat → Str) (c : Str)
    (h : (shorten_url raw db gen).1 = .ok c) :
    ∃ r ∈ (shorten_url raw db gen).2.1.rows,
      r.long_url = normalize_url (pyStrip raw) ∧ r.short_code = c := by
  by_cases hv : is_valid_url (normalize_url (pyStrip raw)) = true
  · cases hf : findByLongUrl db (normalize_url (pyStrip raw)) with
    | some e =>
      rw [shorten_dedup gen hv hf] at h ⊢
      obtain rfl : e.short_code = c := by simpa using h
      have hf' : db.rows.find? (fun r => r.long_url == normalize_url (pyStrip raw)) = some e := hf
      refine ⟨e, List.mem_of_find?_eq_some hf', ?_, rfl⟩
      simpa using List.find?_some hf'
    | none =>
      cases hg : tryGen db gen 0 10 with
      | none =>
        rw [shorten_exhausted hv hf hg] at h
        exact absurd h (by simp)
      | some pr =>
        obtain ⟨code, used⟩ := pr
        rw [shorten_fresh hv hf hg] at h ⊢
        obtain rfl : code = c := by simpa using h
        exact ⟨freshRow db (normalize_url (pyStrip raw)) code, by simp, rfl, rfl⟩
  · rw [shorten_invalid db gen (by simpa using hv)] at h
    exact absurd h (by simp)

theorem runShortens_rows_extend :
    ∀ (ops : List (Str × (Nat → Str))) (db : Store),
    ∃ ext, (runShortens db ops).2.rows = db.rows ++ ext := by
  intro ops
  induction ops with
  | nil => exact fun db => ⟨[], by simp [runShortens]⟩
  | cons op rest ih =>
    intro db
    obtain ⟨raw, gen⟩ := op
    obtain ⟨ext1, h1⟩ := shorten_rows_extend raw db gen
    obtain ⟨ext2, h2⟩ := ih (shorten_url raw db gen).2.1
    exact ⟨ext1 ++ ext2, by rw [runShortens_snd_cons, h2, h1, List.append_assoc]⟩

theorem runShortens_nodup :
    ∀ (ops : List (Str × (Nat → Str))) (db : Store),
    codesNodup db → codesNodup (runShortens db ops).2 := by
  intro ops
  induction ops with
  | nil => exact fun db h => h
  | cons op rest ih =>
    intro db h
    obtain ⟨raw, gen⟩ := op
    rw [runShortens_snd_cons]
    exact ih _ (shorten_codes_nodup raw db gen h)

theorem runShortens_ok_mem :
    ∀ (ops : List (Str × (Nat → Str))) (db : Store) (i : Nat) (raw : Str)
      (gen : Nat → Str) (c : Str),
    ops.get? i = some (raw, gen) →
    (runShortens db ops).1.get? i = some (.ok c) →
    ∃ r ∈ (runShortens db ops).2.rows,
      r.long_url = normalize_url (pyStrip raw) ∧ r.short_code = c := by
  intro ops
  induction ops with
  | nil => intro db i raw gen c hop _; exact absurd hop (by simp)
  | cons op rest ih =>
    intro db i raw gen c hop hres
    cases i with
    | zero =>
      obtain rfl : op = (raw, gen) := by simpa using hop
      have hr : (shorten_url raw db gen).1 = .ok c := by
        rw [runShortens_fst_cons] at hres
        simpa using hres
      obtain ⟨r, hmem, hl, hc⟩ := shorten_ok_mem raw db gen c hr
      obtain ⟨ext, hext⟩ := runShortens_rows_extend rest (shorten_url raw db gen).2.1
      refine ⟨r, ?_, hl, hc⟩
      rw [runShortens_snd_cons, hext]
      exact List.mem_append_left _ hmem
    | succ i' =>
      obtain ⟨raw0, gen0⟩ := op
      have hop' : rest.get? i' = some (raw, gen) := by simpa using hop
      have hres' : (runShortens (shorten_url raw0 db gen0).2.1 rest).1.get? i'
          = some (.ok c) := by
        rw [runShortens_fst_cons] at hres
        simpa using hres
      obtain ⟨r, hmem, hl, hc⟩ := ih _ i' raw gen c hop' hres'
      exact ⟨r, by rw [runShortens_snd_cons]; exact hmem, hl, hc⟩

/-- Claim C8: starting from any store satisfying the `short_code`
uniqueness constraint, every store reachable by a sequence of `shorten`
calls satisfies it (no two live rows share a short code), and the codes
returned for raw inputs with pairwise-distinct normalized URLs are pairwise
distinct. -/
theorem C8_shortcode_uniqueness (db : Store) (ops : List (Str × (Nat → Str)))
    (hnd : codesNodup db) :
    (∀ k, codesNodup (runShortens db (ops.take k)).2) ∧
    (∀ i j ri gi rj gj ci cj,
      ops.get? i = some (ri, gi) → ops.get? j = some (rj, gj) →
      (runShortens db ops).1.get? i = some (.ok ci) →
      (runShortens db ops).1.get? j = some (.ok cj) →
      normalize_url (pyStrip ri) ≠ normalize_url (pyStrip rj) → ci ≠ cj) := by
  constructor
  · intro k
    exact runShortens_nodup _ _ hnd
  · intro i j ri gi rj gj ci cj hoi hoj hri hrj hne
    obtain ⟨x, hxmem, hxl, hxc⟩ := runShortens_ok_mem ops db i ri gi ci hoi hri
    obtain ⟨y, hymem, hyl, hyc⟩ := runShortens_ok_mem ops db j rj gj cj hoj hrj
    intro heq
    have hxy : x ≠ y := by
      intro hcontra
      exact hne (by rw [← hxl, hcontra, hyl])
    have hnodup : ((runShortens db ops).2.rows.map (·.short_code)).Nodup :=
      runShortens_nodup ops db hnd
    exact hxy (List.inj_on_of_nodup_map hnodup hxmem hymem (by rw [hxc, hyc, heq]))

theorem C8_witness :
    codesNodup ⟨[], 0, 0⟩ ∧
    ((∀ k, codesNodup (runShortens ⟨[], 0, 0⟩ (demoOps.take k)).2) ∧
     (∀ i j ri gi rj gj ci cj,
       demoOps.get? i = some (ri, gi) → demoOps.get? j = some (rj, gj) →
       (runShortens ⟨[], 0, 0⟩ demoOps).1.get? i = some (.ok ci) →
       (runShortens ⟨[], 0, 0⟩ demoOps).1.get? j = some (.ok cj) →
       normalize_url (pyStrip ri) ≠ normalize_url (pyStrip rj) → ci ≠ cj)) :=
  ⟨by decide, C8_shortcode_uniqueness ⟨[], 0, 0⟩ demoOps (by decide)⟩

/-! ## Claim C10 -/

/-- Claim C10: the analytics ranking returns at most `lim` rows, sorted by
click count in descending order, without mutating the store (`analytics` is
a pure function of the store); on a store with click counts 5, 10, 1 the
top-2 listing is the 10-row followed by the 5-row. -/
theorem C10_analytics_ranking (db : Store) (lim : Nat) :
    (analytics db lim).length ≤ lim ∧
    (analytics db lim).Pairwise (fun a b => b.click_count ≤ a.click_count) ∧
    analytics demoDb 2 = [rowB, rowA] := by
  refine ⟨List.length_take_le _ _, ?_, by decide⟩
  exact (sortByClicksDesc_pairwise db.rows).sublist (List.take_sublist _ _)

/-! ## Claim C9 -/

/-- Claim C9: `normalize_url` is idempotent on every string the validator
accepts: for every `u` with `is_valid_url u = true`,
`normalize_url (normalize_url u) = normalize_url u`. -/
theorem C9_normalize_idempotent (u : Str) (h : is_valid_url u = true) :
    normalize_url (normalize_url u) = normalize_url u := by
  obtain ⟨S, host, P, Y, NL, rfl, hS, hhost, hhostc, hP, hY, hYs, hNL⟩ :=
    is_valid_shape u h
  by_cases hlit : S = "http".toList ∨ S = "https".toList
  · obtain ⟨hm1, hm2, hm3⟩ := stripPort_facts S host P hhost hhostc hP
    exact normalize_fixpoint_aux S (host ++ P) Y NL hlit
      (netloc_chars_end host P hhostc hP) (netloc_chars_safe host P hhostc hP)
      hY hYs hNL hm1 hm2 hm3
  · push_neg at hlit
    have hrest : host ++ P ++ Y ++ NL ≠ [] := by
      intro hh
      rw [List.append_eq_nil, List.append_eq_nil, List.append_eq_nil] at hh
      exact hhost hh.1.1.1
    have hpre : pyStartswith2
        (S ++ ':' :: '/' :: '/' :: (host ++ P ++ Y ++ NL)) = false :=
      pyStartswith2_nonliteral S _ hS hlit.1 hlit.2 hrest
    rw [normalize_prepend _ hpre]
    have hshape : "https://".toList ++
        (S ++ ':' :: '/' :: '/' :: (host ++ P ++ Y ++ NL)) =
        "https".toList ++ ':' :: '/' :: '/' ::
          ((S ++ [':']) ++ ('/' :: '/' :: (host ++ P ++ Y)) ++ NL) := by
      have h1 : ("https://".toList : Str) ++
          (S ++ ':' :: '/' :: '/' :: (host ++ P ++ Y ++ NL)) =
          "https".toList ++ ':' :: '/' :: '/' ::
            (S ++ ':' :: '/' :: '/' :: (host ++ P ++ Y ++ NL)) := rfl
      rw [h1]
      simp [List.append_assoc]
    rw [hshape]
    have hSne : S ≠ [] := by
      intro he
      rcases hS with h2 | h2 <;> rw [he] at h2 <;> exact absurd h2 (by decide)
    have hhostcB : ∀ c ∈ S, hostChar c = true :=
      fun c hc => isAlphaA_hostChar c (scheme_chars_alpha S hS c hc)
    have hPB : ([':'] : Str) = [] ∨
        ∃ D, ([':'] : Str) = ':' :: D ∧ ∀ c ∈ D, isDigitA c = true :=
      Or.inr ⟨[], rfl, fun c hc => absurd hc (List.not_mem_nil c)⟩
    obtain ⟨hm1, hm2, hm3⟩ := stripPort_facts "https".toList S [':'] hSne hhostcB hPB
    have hnEB : ∀ c ∈ S ++ [':'], netlocEnd c = false := by
      intro c hc
      rcases List.mem_append.mp hc with hc | hc
      · exact isAlphaA_not_netlocEnd c (scheme_chars_alpha S hS c hc)
      · rcases List.mem_cons.mp hc with rfl | hc
        · decide
        · exact absurd hc (List.not_mem_nil c)
    have hnSB : ∀ c ∈ S ++ [':'], safeChar c = true := by
      intro c hc
      rcases List.mem_append.mp hc with hc | hc
      · exact isAlphaA_safe c (scheme_chars_alpha S hS c hc)
      · rcases List.mem_cons.mp hc with rfl | hc
        · decide
        · exact absurd hc (List.not_mem_nil c)
    have hYSB : ∀ c ∈ '/' :: '/' :: (host ++ P ++ Y), safeChar c = true := by
      intro c hc
      rcases List.mem_cons.mp hc with rfl | hc
      · decide
      · rcases List.mem_cons.mp hc with rfl | hc
        · decide
        · rcases List.mem_append.mp hc with hc | hc
          · exact netloc_chars_safe host P hhostc hP c hc
          · exact hYs c hc
    exact normalize_fixpoint_aux "https".toList (S ++ [':'])
      ('/' :: '/' :: (host ++ P ++ Y)) NL (Or.inr rfl) hnEB hnSB
      (Or.inr ⟨'/', _, rfl, by decide⟩) hYSB hNL hm1 hm2 hm3

theorem C9_witness :
    is_valid_url "HTTP://Example.COM:80/A;b?q=1#f".toList = true ∧
    normalize_url (normalize_url "HTTP://Example.COM:80/A;b?q=1#f".toList) =
      normalize_url "HTTP://Example.COM:80/A;b?q=1#f".toList :=
  ⟨by decide, C9_normalize_idempotent _ (by decide)⟩

end UrlShort
